import Mathlib

/-!
Path map with wildcards (`goarista/path/map.go`).

A shallow embedding of the wildcard trie `path.Map` and of its operations
`Get`, `Set`, `Delete`, `Visit`, `VisitPrefixes` and `String`, followed by the
properties proved about them.

Modelling conventions.

* A path element is either the `Wildcard` sentinel or a caller supplied key of
  an arbitrary type `K` with decidable equality.
* The payload `interface{}` is `Option V`: Go's `nil` is `none`.
* `map[key.Key]*Map` is an association list read by first match; a `nil` map
  and an empty map are both `[]`.
* The Go methods mutate the receiver in place; here every mutating method
  returns the new map (and `Delete` the reported boolean with it).
* A visitor is a state passing function; its state stands for whatever side
  effects the Go callback performs.
-/

set_option linter.unusedSectionVars false

namespace path

/-! ## Data model -/

/-- A path element (`key.Key`): the wildcard sentinel or a concrete key. -/
inductive Element (K : Type) where
  | wildcard : Element K
  | key (k : K) : Element K
  deriving DecidableEq, Repr

/-- The source's `var Wildcard = wildcard{}`. -/
def Wildcard {K : Type} : Element K := Element.wildcard

/-- The method `Equal` of a path element. For the wildcard this is
`wildcard.Equal` (true exactly on another wildcard); for a concrete key it is
the equality of the key type, which never holds against the wildcard. -/
def Element.Equal {K : Type} [DecidableEq K] (e other : Element K) : Bool :=
  match e, other with
  | Element.wildcard, Element.wildcard => true
  | Element.key a, Element.key b => decide (a = b)
  | _, _ => false

/-- The method `String` of a path element, given the rendering of concrete
keys: the wildcard renders as `*`. -/
def Element.String {K : Type} (keyString : K → String) : Element K → String
  | Element.wildcard => "*"
  | Element.key k => keyString k

/-- A path: a finite sequence of elements. -/
abbrev Path (K : Type) := List (Element K)

/-- The source's `type Map struct { val; wildcard *Map; children map[key.Key]*Map }`. -/
inductive Map (K V : Type) where
  | mk (val : Option V) (wildcard : Option (Map K V))
      (children : List (Element K × Map K V)) : Map K V

/-- A visitor: receives one value and the current state of the outside world,
returns the new state and an optional error. -/
abbrev VisitorFunc (V E σ : Type) := V → σ → σ × Option E

section Defs

variable {K V E σ : Type} [DecidableEq K]

/-- Field `val`. -/
def Map.val : Map K V → Option V
  | Map.mk v _ _ => v

/-- Field `wildcard`. -/
def Map.wildcard : Map K V → Option (Map K V)
  | Map.mk _ w _ => w

/-- Field `children`. -/
def Map.children : Map K V → List (Element K × Map K V)
  | Map.mk _ _ c => c

/-- The zero value `Map{}`. -/
def Map.empty : Map K V := Map.mk none none []

/-! ## Operations on the `children` mapping -/

/-- Map read `children[element]`. -/
def childGet (element : Element K) : List (Element K × Map K V) → Option (Map K V)
  | [] => none
  | (k, c) :: rest => if k = element then some c else childGet element rest

/-- Map write `children[element] = next`. -/
def childPut (element : Element K) (next : Map K V) :
    List (Element K × Map K V) → List (Element K × Map K V)
  | [] => [(element, next)]
  | (k, c) :: rest =>
    if k = element then (k, next) :: rest else (k, c) :: childPut element next rest

/-- Map removal `delete(children, element)`. -/
def childDelete (element : Element K) (cs : List (Element K × Map K V)) :
    List (Element K × Map K V) :=
  cs.filter fun kc => decide (kc.1 ≠ element)

/-- The negation of the pruning loop's guard
`m.val != nil || m.wildcard != nil || len(m.children) > 0`. -/
def Map.isEmpty (m : Map K V) : Bool :=
  m.val.isNone && m.wildcard.isNone && decide (m.children.length = 0)

/-! ## Get, Set, Delete -/

/-- The method `Get`: exact walk, a wildcard element follows the wildcard slot
only, a concrete element the children entry only. -/
def Map.Get : Map K V → Path K → Option V
  | m, [] => m.val
  | m, element :: p =>
    if element.Equal Wildcard then
      match m.wildcard with
      | none => none
      | some w => w.Get p
    else
      match childGet element m.children with
      | none => none
      | some next => next.Get p

/-- The method `Set`: walks the path creating the missing nodes, then stores
the value at the last node. -/
def Map.Set : Map K V → Path K → Option V → Map K V
  | m, [], v => Map.mk v m.wildcard m.children
  | m, element :: p, v =>
    if element.Equal Wildcard then
      match m.wildcard with
      | none => Map.mk m.val (some (Map.empty.Set p v)) m.children
      | some w => Map.mk m.val (some (w.Set p v)) m.children
    else
      match childGet element m.children with
      | none => Map.mk m.val m.wildcard (childPut element (Map.empty.Set p v) m.children)
      | some next => Map.mk m.val m.wildcard (childPut element (next.Set p v) m.children)

/-- The body of `Delete` below the root: the walk down the path (`none` when a
child is missing, the `return false` of the source), the clearing of the last
node's value, and the pruning loop on the way back. The boolean of the result
tells whether the pruning loop is still running when it reaches this node,
that is whether it has not met its `break` yet. -/
def Map.deleteWalk : Map K V → Path K → Option (Map K V × Bool)
  | m, [] => some (Map.mk none m.wildcard m.children, true)
  | m, element :: p =>
    if element.Equal Wildcard then
      match m.wildcard with
      | none => none
      | some next =>
        match next.deleteWalk p with
        | none => none
        | some (next', pruning) =>
          if pruning && next'.isEmpty then
            some (Map.mk m.val none m.children, true)
          else
            some (Map.mk m.val (some next') m.children, false)
    else
      match childGet element m.children with
      | none => none
      | some next =>
        match next.deleteWalk p with
        | none => none
        | some (next', pruning) =>
          if pruning && next'.isEmpty then
            some (Map.mk m.val m.wildcard (childDelete element m.children), true)
          else
            some (Map.mk m.val m.wildcard (childPut element next' m.children), false)

/-- The method `Delete`: the map after the call and the boolean it returns. -/
def Map.Delete (m : Map K V) (p : Path K) : Map K V × Bool :=
  match m.deleteWalk p with
  | none => (m, false)
  | some (m', _) => (m', true)

/-! ## Visit, VisitPrefixes -/

/-- The method `Visit`. At every element the wildcard branch is visited first
with the rest of the path, and an error coming back from it is returned at
once; then the walk goes on in the child registered under the element itself. -/
def Map.Visit : Map K V → Path K → VisitorFunc V E σ → σ → σ × Option E
  | m, [], fn, s =>
    match m.val with
    | none => (s, none)
    | some v => fn v s
  | m, element :: p, fn, s =>
    match (match m.wildcard with
           | none => (s, none)
           | some w => w.Visit p fn s) with
    | (s₁, some err) => (s₁, some err)
    | (s₁, none) =>
      match childGet element m.children with
      | none => (s₁, none)
      | some next => next.Visit p fn s₁

/-- The method `VisitPrefixes`: as `Visit`, but the value of every node met on
the way is passed to the visitor too. -/
def Map.VisitPrefixes : Map K V → Path K → VisitorFunc V E σ → σ → σ × Option E
  | m, [], fn, s =>
    match m.val with
    | none => (s, none)
    | some v => fn v s
  | m, element :: p, fn, s =>
    match (match m.val with
           | none => (s, none)
           | some v => fn v s) with
    | (s₀, some err) => (s₀, some err)
    | (s₀, none) =>
      match (match m.wildcard with
             | none => (s₀, none)
             | some w => w.VisitPrefixes p fn s₀) with
      | (s₁, some err) => (s₁, some err)
      | (s₁, none) =>
        match childGet element m.children with
        | none => (s₁, none)
        | some next => next.VisitPrefixes p fn s₁

/-! ## String -/

/-- The children keys in the order `write` prints them: `sort.Slice` with
`children[i].String() < children[j].String()`. -/
def sortKeys (keyString : K → String) (keys : List (Element K)) : List (Element K) :=
  keys.insertionSort fun a b => ¬ (b.String keyString < a.String keyString)

/-- The text of the child registered under a key, in the rendered children. -/
def childText (key : Element K) : List (Element K × String) → String
  | [] => ""
  | (k, t) :: rest => if k = key then t else childText key rest

mutual
/-- The method `write`, as the text it appends to the buffer. `fmtVal` is the
verb `%v` on a value, `keyString` the method `String` of a concrete key and
`quote` the verb `%q` on a string. -/
def Map.write (fmtVal : V → String) (keyString : K → String) (quote : String → String) :
    Map K V → String → String
  | Map.mk val wildcard children, indent =>
    (match val with
     | none => ""
     | some v => indent ++ "Val: " ++ fmtVal v ++ "\n") ++
    writeWildcard fmtVal keyString quote wildcard indent ++
    String.join ((sortKeys keyString (children.map Prod.fst)).map fun key =>
      indent ++ "Child " ++ quote (key.String keyString) ++ ":\n" ++
        childText key (writeChildren fmtVal keyString quote children indent))
/-- The wildcard part of `write`: nothing when the wildcard child is `nil`. -/
def writeWildcard (fmtVal : V → String) (keyString : K → String) (quote : String → String) :
    Option (Map K V) → String → String
  | none, _ => ""
  | some w, indent =>
    indent ++ "Child " ++ quote (Element.String keyString (Wildcard : Element K)) ++ ":\n" ++
      Map.write fmtVal keyString quote w (indent ++ "  ")
/-- The text `child.write(b, indent+"  ")` of every entry of `children`. -/
def writeChildren (fmtVal : V → String) (keyString : K → String) (quote : String → String) :
    List (Element K × Map K V) → String → List (Element K × String)
  | [], _ => []
  | (k, c) :: rest, indent =>
    (k, Map.write fmtVal keyString quote c (indent ++ "  ")) ::
      writeChildren fmtVal keyString quote rest indent
end

/-- The method `String`. -/
def Map.String (fmtVal : V → String) (keyString : K → String) (quote : String → String)
    (m : Map K V) : String :=
  m.write fmtVal keyString quote ""

/-! ## Observing a traversal -/

/-- The visitor that appends what it receives to a list and never fails. -/
def collect : VisitorFunc V Unit (List V) := fun v log => (log ++ [v], none)

/-- The values `Visit` passes, in order, to a visitor that never fails. -/
def Map.visited (m : Map K V) (p : Path K) : List V :=
  (m.Visit p collect []).1

/-- The values `VisitPrefixes` passes, in order, to a visitor that never fails. -/
def Map.visitedPrefixes (m : Map K V) (p : Path K) : List V :=
  (m.VisitPrefixes p collect []).1

/-- A visitor together with the log of the values it has received. -/
def recording (fn : VisitorFunc V E σ) : VisitorFunc V E (σ × List V) :=
  fun v s => (((fn v s.1).1, s.2 ++ [v]), (fn v s.1).2)

/-- Feeding a list of values to a visitor one by one, stopping at the first
error. -/
def runVisitor (fn : VisitorFunc V E σ) : List V → σ → σ × Option E
  | [], s => (s, none)
  | v :: vs, s =>
    match fn v s with
    | (s₁, some err) => (s₁, some err)
    | (s₁, none) => runVisitor fn vs s₁

/-- The early abort contract of a traversal started in state `s` with visitor
`fn`, where `full` is the sequence of values a visitor that never fails
receives and `r` the outcome of the traversal with the recording visitor:
when `fn` first fails at some value of `full`, the traversal returns that very
error and the log is `full` up to and including that value; when `fn` fails
nowhere on `full`, the traversal returns no error and the log is `full`. -/
def EarlyAbort (fn : VisitorFunc V E σ) (s : σ) (full : List V)
    (r : (σ × List V) × Option E) : Prop :=
  (∀ (pre post : List V) (v : V) (s₁ : σ) (err : E),
      full = pre ++ v :: post → runVisitor fn pre s = (s₁, none) →
      (fn v s₁).2 = some err →
      r = (((fn v s₁).1, pre ++ [v]), some err)) ∧
  (∀ s₁ : σ, runVisitor fn full s = (s₁, none) → r = ((s₁, full), none))

/-- The values at the nodes `Visit` reaches, in the order it reaches them;
used to describe the traversal independently of the visitor. -/
def Map.visitValues : Map K V → Path K → List V
  | m, [] => m.val.toList
  | m, element :: p =>
    (match m.wildcard with
     | none => []
     | some w => w.visitValues p) ++
    (match childGet element m.children with
     | none => []
     | some next => next.visitValues p)

/-- The values at the nodes `VisitPrefixes` reaches, in the order it reaches
them. -/
def Map.prefixValues : Map K V → Path K → List V
  | m, [] => m.val.toList
  | m, element :: p =>
    m.val.toList ++
    ((match m.wildcard with
      | none => []
      | some w => w.prefixValues p) ++
     (match childGet element m.children with
      | none => []
      | some next => next.prefixValues p))

/-! ## Patterns -/

/-- A path without wildcard elements. -/
def Concrete (p : Path K) : Prop := ∀ e ∈ p, e ≠ Wildcard

/-- Pattern `q` matches path `p`: same length and, at every position, the
pattern has the wildcard or the element of `p`. -/
def Matches (q p : Path K) : Prop :=
  q.length = p.length ∧
    ∀ (i : Nat) (h₁ : i < q.length) (h₂ : i < p.length),
      q.get ⟨i, h₁⟩ = Wildcard ∨ q.get ⟨i, h₁⟩ = p.get ⟨i, h₂⟩

/-- Pattern `q` matches a prefix of path `p`. -/
def MatchesPrefix (q p : Path K) : Prop :=
  q.length ≤ p.length ∧
    ∀ (i : Nat) (h₁ : i < q.length) (h₂ : i < p.length),
      q.get ⟨i, h₁⟩ = Wildcard ∨ q.get ⟨i, h₁⟩ = p.get ⟨i, h₂⟩

/-- The patterns matching `p`, wildcard first at every position. -/
def patterns : Path K → List (Path K)
  | [] => [[]]
  | e :: p => (patterns p).map (fun q => Wildcard :: q) ++ (patterns p).map (fun q => e :: q)

/-- The patterns matching a prefix of `p`: the empty one, then those starting
with the wildcard, then those starting with the first element of `p`. -/
def prefixPatterns : Path K → List (Path K)
  | [] => [[]]
  | e :: p =>
    [] :: ((prefixPatterns p).map (fun q => Wildcard :: q) ++
      (prefixPatterns p).map (fun q => e :: q))

/-! ## Sequences of calls -/

/-- A mutating call: `Set` with a value that is not `nil`, or `Delete`. -/
inductive Op (K V : Type) where
  | set (p : Path K) (v : V) : Op K V
  | delete (p : Path K) : Op K V

/-- The map after a call. -/
def Op.apply : Op K V → Map K V → Map K V
  | Op.set p v, m => m.Set p (some v)
  | Op.delete p, m => (m.Delete p).1

/-- The map obtained from the empty map by a sequence of calls. -/
def Map.run (ops : List (Op K V)) : Map K V :=
  ops.foldl (fun m op => op.apply m) Map.empty

mutual
/-- No node strictly below this one is empty, that is without value, without
wildcard child and without children. -/
def Map.noDangling : Map K V → Bool
  | Map.mk _ wildcard children => noDanglingWildcard wildcard && noDanglingChildren children
/-- The wildcard child, when there is one, is not empty and has no empty node
below it. -/
def noDanglingWildcard : Option (Map K V) → Bool
  | none => true
  | some w => !w.isEmpty && Map.noDangling w
/-- Every child is not empty and has no empty node below it. -/
def noDanglingChildren : List (Element K × Map K V) → Bool
  | [] => true
  | (_, c) :: rest => !c.isEmpty && Map.noDangling c && noDanglingChildren rest
end

/-! ## The examples of the documentation -/

/-- A path of concrete string keys, as `path.New` builds it. -/
def keys (ks : List String) : Path String := ks.map Element.key

/-- The eight registrations `a` to `h` in the documentation of `Visit`. -/
def visitExample : Map String Nat :=
  ((((((((Map.empty.Set [Element.key "foo", Element.key "bar", Element.key "baz"] (some 1)).Set
    [Element.key "foo", Wildcard, Element.key "baz"] (some 2)).Set
    [Wildcard, Element.key "bar", Element.key "baz"] (some 3)).Set
    [Element.key "foo", Element.key "bar", Wildcard] (some 4)).Set
    [Wildcard, Wildcard, Element.key "baz"] (some 5)).Set
    [Wildcard, Element.key "bar", Wildcard] (some 6)).Set
    [Element.key "foo", Wildcard, Wildcard] (some 7)).Set
    [Wildcard, Wildcard, Wildcard] (some 8))

/-- The five registrations `a` to `e` in the documentation of `VisitPrefixes`. -/
def prefixExample : Map String Nat :=
  (((((Map.empty.Set [] (some 1)).Set [Element.key "foo"] (some 2)).Set
    [Element.key "foo", Element.key "bar"] (some 3)).Set
    [Element.key "foo", Element.key "baz"] (some 4)).Set
    [Wildcard, Element.key "bar"] (some 5))

/-- A visitor that counts its invocations and fails on the second one. -/
def failOnSecond : VisitorFunc Nat String Nat :=
  fun _ n => (n + 1, if n + 1 = 2 then some "stop" else none)

/-! ## Nodes of the trie -/

/-- The exact walk shared by `Get`, `Set` and `Delete`: the node reached from
`m` by following the wildcard child at a wildcard element and the children
entry at a concrete element, `none` as soon as the child is missing. -/
def Map.walk : Map K V → Path K → Option (Map K V)
  | m, [] => some m
  | m, element :: p =>
    if element.Equal Wildcard then
      match m.wildcard with
      | none => none
      | some w => w.walk p
    else
      match childGet element m.children with
      | none => none
      | some next => next.walk p

/-- A call of a mutating method with arbitrary arguments: `Set` with any
value, `nil` included, or `Delete`. -/
inductive Call (K V : Type) where
  | set (p : Path K) (v : Option V) : Call K V
  | delete (p : Path K) : Call K V

/-- The map after a call. -/
def Call.apply : Call K V → Map K V → Map K V
  | Call.set p v, m => m.Set p v
  | Call.delete p, m => (m.Delete p).1

/-- The map obtained from the empty map by a sequence of calls. -/
def Map.after (calls : List (Call K V)) : Map K V :=
  calls.foldl (fun m c => c.apply m) Map.empty

mutual
/-- No `children` mapping of the trie has a key equal to the wildcard. -/
def Map.noWildcardKey : Map K V → Bool
  | Map.mk _ wildcard children =>
    noWildcardKeyWildcard wildcard && noWildcardKeyChildren children
/-- The property `noWildcardKey` of the wildcard child, when there is one. -/
def noWildcardKeyWildcard : Option (Map K V) → Bool
  | none => true
  | some w => Map.noWildcardKey w
/-- No key of the list is equal to the wildcard, and every child has the
property `noWildcardKey`. -/
def noWildcardKeyChildren : List (Element K × Map K V) → Bool
  | [] => true
  | (k, c) :: rest =>
    !k.Equal Wildcard && Map.noWildcardKey c && noWildcardKeyChildren rest
end

/-- The patterns a query path can reach in a trie without wildcard keys: at a
concrete element the wildcard and the element, at a wildcard element the
wildcard only. -/
def queryPatterns : Path K → List (Path K)
  | [] => [[]]
  | e :: p =>
    if e.Equal Wildcard then
      (queryPatterns p).map (fun q => Wildcard :: q)
    else
      (queryPatterns p).map (fun q => Wildcard :: q) ++ (queryPatterns p).map (fun q => e :: q)

/-- The patterns a query path can reach with one of its prefixes. -/
def queryPrefixPatterns : Path K → List (Path K)
  | [] => [[]]
  | e :: p =>
    if e.Equal Wildcard then
      [] :: (queryPrefixPatterns p).map (fun q => Wildcard :: q)
    else
      [] :: ((queryPrefixPatterns p).map (fun q => Wildcard :: q) ++
        (queryPrefixPatterns p).map (fun q => e :: q))

/-- The order of C13 as the claim states it: whenever the value of a matching
pattern `q` is passed before the value of a matching pattern `r`, `q` is not
longer than `r`. -/
def ShortestPrefixFirst (m : Map K V) (p : Path K) : Prop :=
  ∀ (q r : Path K) (a b : V) (xs ys zs : List V),
    MatchesPrefix q p → MatchesPrefix r p → m.Get q = some a → m.Get r = some b →
    m.visitedPrefixes p = xs ++ a :: (ys ++ b :: zs) → q.length ≤ r.length

/-- The map after `Set q v` for every path `q` of a list, in order. -/
def registerAll (qs : List (Path K)) (v : V) (m : Map K V) : Map K V :=
  qs.foldl (fun m q => m.Set q (some v)) m

/-! ## Slots -/

/-- The place of a child in its parent: the wildcard slot or the entry of
`children` under some element. -/
inductive Slot (K : Type) where
  | wildcard : Slot K
  | child (e : Element K) : Slot K
  deriving DecidableEq

/-- The child in a slot, when there is one. -/
def Map.next (m : Map K V) : Slot K → Option (Map K V)
  | Slot.wildcard => m.wildcard
  | Slot.child e => childGet e m.children

/-- The value of the node reached by a sequence of slots. -/
def Map.valueAt : Map K V → List (Slot K) → Option V
  | m, [] => m.val
  | m, s :: ss =>
    match m.next s with
    | none => none
    | some n => n.valueAt ss

/-- The slot `Get`, `Set` and `Delete` follow at an element. -/
def slotOf (e : Element K) : Slot K :=
  if e.Equal Wildcard then Slot.wildcard else Slot.child e

/-- The sequences of slots `Visit` follows on a query path, in order. -/
def visitSlots : Path K → List (List (Slot K))
  | [] => [[]]
  | e :: p =>
    (visitSlots p).map (fun ss => Slot.wildcard :: ss) ++
      (visitSlots p).map (fun ss => Slot.child e :: ss)

/-- The sequences of slots `VisitPrefixes` follows on a query path, in order. -/
def prefixSlots : Path K → List (List (Slot K))
  | [] => [[]]
  | e :: p =>
    [] :: ((prefixSlots p).map (fun ss => Slot.wildcard :: ss) ++
      (prefixSlots p).map (fun ss => Slot.child e :: ss))

/-! ## The content of a map -/

/-- The node reached by a sequence of slots, when there is one. -/
def Map.nodeAt : Map K V → List (Slot K) → Option (Map K V)
  | m, [] => some m
  | m, s :: ss =>
    match m.next s with
    | none => none
    | some n => n.nodeAt ss

/-- Two maps have the same content: the same nodes, with the same values. A
node has a wildcard child, or a child under a key, in one map exactly when it
has one in the other, whatever the order in which the entries of `children`
were put. -/
def Map.SameContent (m₁ m₂ : Map K V) : Prop :=
  ∀ ss : List (Slot K), (m₁.nodeAt ss).map Map.val = (m₂.nodeAt ss).map Map.val

mutual
/-- At every node the keys of `children` have pairwise distinct string
renderings. -/
def Map.distinctKeyStrings (keyString : K → String) : Map K V → Bool
  | Map.mk _ wildcard children =>
    decide ((children.map fun kc => kc.1.String keyString).Nodup) &&
      distinctKeyStringsWildcard keyString wildcard &&
      distinctKeyStringsChildren keyString children
/-- The property `distinctKeyStrings` of the wildcard child, when there is
one. -/
def distinctKeyStringsWildcard (keyString : K → String) : Option (Map K V) → Bool
  | none => true
  | some w => Map.distinctKeyStrings keyString w
/-- The property `distinctKeyStrings` of every child. -/
def distinctKeyStringsChildren (keyString : K → String) : List (Element K × Map K V) → Bool
  | [] => true
  | (_, c) :: rest =>
    Map.distinctKeyStrings keyString c && distinctKeyStringsChildren keyString rest
end

end Defs

/-! ## Basic facts -/

section Fields

variable {K V : Type}

@[simp] theorem Map.val_mk (v : Option V) (w : Option (Map K V)) (cs) :
    (Map.mk v w cs).val = v := rfl

@[simp] theorem Map.wildcard_mk (v : Option V) (w : Option (Map K V)) (cs) :
    (Map.mk v w cs).wildcard = w := rfl

@[simp] theorem Map.children_mk (v : Option V) (w : Option (Map K V)) (cs) :
    (Map.mk v w cs).children = cs := rfl

@[simp] theorem Map.val_empty : (Map.empty : Map K V).val = none := rfl

@[simp] theorem Map.wildcard_empty : (Map.empty : Map K V).wildcard = none := rfl

@[simp] theorem Map.children_empty : (Map.empty : Map K V).children = [] := rfl

theorem Map.eta (m : Map K V) : Map.mk m.val m.wildcard m.children = m := by
  cases m; rfl

end Fields

section Basic

variable {K V E σ : Type} [DecidableEq K]

@[simp] theorem Element.Equal_Wildcard_wildcard :
    (Element.wildcard : Element K).Equal Wildcard = true := rfl

@[simp] theorem Element.Equal_Wildcard_key (k : K) :
    (Element.key k).Equal Wildcard = false := rfl

@[simp] theorem childGet_nil (e : Element K) :
    childGet e ([] : List (Element K × Map K V)) = none := rfl

theorem childGet_childPut_self (e : Element K) (n : Map K V) (cs) :
    childGet e (childPut e n cs) = some n := by
  induction cs with
  | nil => simp [childPut, childGet]
  | cons hd tl ih =>
    obtain ⟨k, c⟩ := hd
    by_cases h : k = e
    · simp [childPut, childGet, h]
    · simp [childPut, childGet, h, ih]

theorem childGet_childPut_ne {e e' : Element K} (h : e ≠ e') (n : Map K V) (cs) :
    childGet e' (childPut e n cs) = childGet e' cs := by
  induction cs with
  | nil => simp [childPut, childGet, h]
  | cons hd tl ih =>
    obtain ⟨k, c⟩ := hd
    by_cases hk : k = e
    · subst hk
      simp [childPut, childGet, h]
    · by_cases hk' : k = e'
      · subst hk'
        simp [childPut, childGet, hk]
      · simp [childPut, childGet, hk, hk', ih]

theorem childGet_childDelete_self (e : Element K) (cs : List (Element K × Map K V)) :
    childGet e (childDelete e cs) = none := by
  induction cs with
  | nil => rfl
  | cons hd tl ih =>
    obtain ⟨k, c⟩ := hd
    by_cases h : k = e
    · simpa [childDelete, h] using ih
    · have : childDelete e ((k, c) :: tl) = (k, c) :: childDelete e tl := by
        simp [childDelete, h]
      rw [this]
      simp [childGet, h, ih]

theorem childGet_childDelete_ne {e e' : Element K} (h : e ≠ e')
    (cs : List (Element K × Map K V)) :
    childGet e' (childDelete e cs) = childGet e' cs := by
  induction cs with
  | nil => rfl
  | cons hd tl ih =>
    obtain ⟨k, c⟩ := hd
    by_cases hk : k = e
    · subst hk
      have : childDelete k ((k, c) :: tl) = childDelete k tl := by
        simp [childDelete]
      rw [this, ih]
      simp [childGet, h]
    · have : childDelete e ((k, c) :: tl) = (k, c) :: childDelete e tl := by
        simp [childDelete, hk]
      rw [this]
      by_cases hk' : k = e'
      · simp [childGet, hk']
      · simp [childGet, hk', ih]

theorem Map.Get_nil (m : Map K V) : m.Get [] = m.val := by
  cases m; rfl

theorem Map.Get_wildcard_cons (m : Map K V) (p : Path K) :
    m.Get (Element.wildcard :: p) =
      match m.wildcard with
      | none => none
      | some w => w.Get p := by
  simp [Map.Get]

theorem Map.Get_key_cons (m : Map K V) (k : K) (p : Path K) :
    m.Get (Element.key k :: p) =
      match childGet (Element.key k) m.children with
      | none => none
      | some next => next.Get p := by
  simp [Map.Get]

theorem Map.Get_empty (p : Path K) : (Map.empty : Map K V).Get p = none := by
  cases p with
  | nil => rfl
  | cons e p => cases e <;> simp [Map.Get]

/-- What `Set` does at a wildcard element: the wildcard child, created when
missing, is replaced by the result of `Set` on the rest of the path. -/
theorem Map.Set_wildcard_cons (m : Map K V) (p : Path K) (v : Option V) :
    m.Set (Element.wildcard :: p) v =
      Map.mk m.val (some (((m.wildcard).getD Map.empty).Set p v)) m.children := by
  cases h : m.wildcard <;> simp [Map.Set, h]

/-- What `Set` does at a concrete element. -/
theorem Map.Set_key_cons (m : Map K V) (k : K) (p : Path K) (v : Option V) :
    m.Set (Element.key k :: p) v =
      Map.mk m.val m.wildcard
        (childPut (Element.key k)
          (((childGet (Element.key k) m.children).getD Map.empty).Set p v) m.children) := by
  cases h : childGet (Element.key k) m.children <;> simp [Map.Set, h]

theorem Map.Get_Set_self (m : Map K V) (p : Path K) (v : Option V) :
    (m.Set p v).Get p = v := by
  induction p generalizing m with
  | nil => simp [Map.Set, Map.Get]
  | cons e p ih =>
    cases e with
    | wildcard => simp [Map.Set_wildcard_cons, Map.Get_wildcard_cons, ih]
    | key k => simp [Map.Set_key_cons, Map.Get_key_cons, childGet_childPut_self, ih]

theorem Map.Get_Set_ne (m : Map K V) {p q : Path K} (h : p ≠ q) (v : Option V) :
    (m.Set p v).Get q = m.Get q := by
  induction p generalizing m q with
  | nil =>
    cases q with
    | nil => exact absurd rfl h
    | cons e q => cases e <;> simp [Map.Set, Map.Get]
  | cons e p ih =>
    cases q with
    | nil => cases e <;> simp [Map.Set_wildcard_cons, Map.Set_key_cons, Map.Get_nil]
    | cons e' q =>
      cases e with
      | wildcard =>
        cases e' with
        | wildcard =>
          have hpq : p ≠ q := fun hc => h (by rw [hc])
          rw [Map.Set_wildcard_cons, Map.Get_wildcard_cons, Map.Get_wildcard_cons]
          cases hw : m.wildcard with
          | none => simp [ih _ hpq, Map.Get_empty]
          | some w => simp [ih _ hpq]
        | key k' => simp [Map.Set_wildcard_cons, Map.Get_key_cons]
      | key k =>
        cases e' with
        | wildcard => simp [Map.Set_key_cons, Map.Get_wildcard_cons]
        | key k' =>
          rw [Map.Set_key_cons, Map.Get_key_cons, Map.Get_key_cons]
          by_cases hk : k = k'
          · subst hk
            have hpq : p ≠ q := fun hc => h (by rw [hc])
            simp only [Map.children_mk, childGet_childPut_self]
            cases hc : childGet (Element.key k) m.children with
            | none => simp [ih _ hpq, Map.Get_empty]
            | some c => simp [ih _ hpq]
          · have hne : (Element.key k : Element K) ≠ Element.key k' := by
              intro hc; exact hk (Element.key.inj hc)
            simp only [Map.children_mk, childGet_childPut_ne hne]

end Basic

/-! ## Exact lookup after registration -/

section Claims

/-- C1: round trip and overwrite. For every map, every path (empty, concrete or
with wildcard elements) and every value, absent included, `Get p` on the map
obtained by `Set p v` returns `v` whatever the map held before; in particular
after `Set p v₁` and `Set p v₂`, `Get p` returns `v₂`. -/
theorem Set_then_Get_returns_value {K V : Type} [DecidableEq K]
    (m : Map K V) (p : Path K) (v v₁ v₂ : Option V) :
    (m.Set p v).Get p = v ∧ ((m.Set p v₁).Set p v₂).Get p = v₂ :=
  ⟨Map.Get_Set_self m p v, Map.Get_Set_self _ p v₂⟩

/-- C2: exact lookup never substitutes wildcards. `Set p v` leaves `Get q`
unchanged at every path `q` that differs from `p` as a sequence of elements,
the wildcard being an element different from every concrete one. On the empty
map: after `Set (*, bar) v`, `Get (foo, bar)` is absent and `Get (*, bar)` is
`v`; after `Set (foo, bar) 1`, `Get (foo, *)` is absent. -/
theorem Set_frames_other_paths :
    (∀ (K V : Type) [DecidableEq K] (m : Map K V) (p q : Path K) (v : Option V),
        p ≠ q → (m.Set p v).Get q = m.Get q) ∧
    (∀ v : Option Nat,
        ((Map.empty : Map String Nat).Set [Wildcard, Element.key "bar"] v).Get
            [Element.key "foo", Element.key "bar"] = none ∧
        ((Map.empty : Map String Nat).Set [Wildcard, Element.key "bar"] v).Get
            [Wildcard, Element.key "bar"] = v) ∧
    ((Map.empty : Map String Nat).Set [Element.key "foo", Element.key "bar"] (some 1)).Get
        [Element.key "foo", Wildcard] = none := by
  refine ⟨fun K V _ m p q v h => Map.Get_Set_ne m h v, fun v => ⟨?_, ?_⟩, ?_⟩
  · rw [Map.Get_Set_ne _ (by simp [Wildcard]), Map.Get_empty]
  · exact Map.Get_Set_self _ _ _
  · rw [Map.Get_Set_ne _ (by simp [Wildcard]), Map.Get_empty]

/-- The frame property of `Set` at a concrete pair of paths: registering
`(*, bar)` in a map that holds `(foo, bar)` leaves the latter as it was. -/
theorem Set_frames_other_paths_witness :
    ([Wildcard, Element.key "bar"] : Path String) ≠ [Element.key "foo", Element.key "bar"] ∧
    ((((Map.empty : Map String Nat).Set [Element.key "foo", Element.key "bar"] (some 1)).Set
        [Wildcard, Element.key "bar"] (some 2)).Get [Element.key "foo", Element.key "bar"]
      = some 1) :=
  ⟨by simp [Wildcard], by
    rw [Set_frames_other_paths.1 String Nat _ _ _ _ (by simp [Wildcard])]
    exact Map.Get_Set_self _ _ _⟩

end Claims


/-! ## Traversals as lists of values -/

section Traversal

variable {K V E σ : Type} [DecidableEq K]

theorem runVisitor_append (fn : VisitorFunc V E σ) (a b : List V) (s : σ) :
    runVisitor fn (a ++ b) s =
      match runVisitor fn a s with
      | (s₁, some err) => (s₁, some err)
      | (s₁, none) => runVisitor fn b s₁ := by
  induction a generalizing s with
  | nil => simp [runVisitor]
  | cons v vs ih =>
    simp only [List.cons_append, runVisitor]
    rcases h : fn v s with ⟨s₁, _ | err⟩
    · simp [ih]
    · simp

theorem runVisitor_singleton (fn : VisitorFunc V E σ) (v : V) (s : σ) :
    runVisitor fn [v] s = fn v s := by
  simp only [runVisitor]
  rcases h : fn v s with ⟨s₁, _ | err⟩ <;> simp

theorem runVisitor_toList (fn : VisitorFunc V E σ) (o : Option V) (s : σ) :
    runVisitor fn o.toList s =
      match o with
      | none => (s, none)
      | some v => fn v s := by
  cases o with
  | none => simp [runVisitor]
  | some v => simpa using runVisitor_singleton fn v s

/-- The method `Visit` feeds the visitor the values of `visitValues`, one by
one, and stops at the first error. -/
theorem Map.Visit_eq_runVisitor (m : Map K V) (p : Path K) (fn : VisitorFunc V E σ) (s : σ) :
    m.Visit p fn s = runVisitor fn (m.visitValues p) s := by
  induction p generalizing m s with
  | nil => simp [Map.Visit, Map.visitValues, runVisitor_toList]
  | cons e p ih =>
    simp only [Map.Visit, Map.visitValues, runVisitor_append]
    have hw : (match m.wildcard with
        | none => (s, none)
        | some w => w.Visit p fn s) =
        runVisitor fn (match m.wildcard with
          | none => []
          | some w => w.visitValues p) s := by
      cases m.wildcard with
      | none => simp [runVisitor]
      | some w => simp [ih]
    rw [hw]
    rcases runVisitor fn (match m.wildcard with
          | none => []
          | some w => w.visitValues p) s with ⟨s₁, _ | err⟩
    · cases childGet e m.children with
      | none => simp [runVisitor]
      | some next => simp [ih]
    · simp

/-- The method `VisitPrefixes` feeds the visitor the values of `prefixValues`,
one by one, and stops at the first error. -/
theorem Map.VisitPrefixes_eq_runVisitor (m : Map K V) (p : Path K) (fn : VisitorFunc V E σ)
    (s : σ) : m.VisitPrefixes p fn s = runVisitor fn (m.prefixValues p) s := by
  induction p generalizing m s with
  | nil => simp [Map.VisitPrefixes, Map.prefixValues, runVisitor_toList]
  | cons e p ih =>
    have key : ∀ s₀ : σ,
        (match (match m.wildcard with
            | none => (s₀, none)
            | some w => w.VisitPrefixes p fn s₀) with
          | (s₁, some err) => (s₁, some err)
          | (s₁, none) =>
            match childGet e m.children with
            | none => (s₁, none)
            | some next => next.VisitPrefixes p fn s₁) =
        runVisitor fn
          ((match m.wildcard with
            | none => []
            | some w => w.prefixValues p) ++
           (match childGet e m.children with
            | none => []
            | some next => next.prefixValues p)) s₀ := by
      intro s₀
      rw [runVisitor_append]
      have hw : (match m.wildcard with
          | none => (s₀, none)
          | some w => w.VisitPrefixes p fn s₀) =
          runVisitor fn (match m.wildcard with
            | none => []
            | some w => w.prefixValues p) s₀ := by
        cases m.wildcard with
        | none => simp [runVisitor]
        | some w => simp [ih]
      rw [hw]
      rcases runVisitor fn (match m.wildcard with
            | none => []
            | some w => w.prefixValues p) s₀ with ⟨s₁, _ | err⟩
      · cases childGet e m.children with
        | none => simp [runVisitor]
        | some next => simp [ih]
      · simp
    simp only [Map.VisitPrefixes, Map.prefixValues]
    rw [runVisitor_append, runVisitor_toList]
    cases m.val with
    | none => simpa using key s
    | some v =>
      rcases hf : fn v s with ⟨s₀, _ | err⟩
      · simp only [hf]
        exact key s₀
      · simp only [hf]

theorem runVisitor_collect (l log : List V) :
    runVisitor collect l log = (log ++ l, none) := by
  induction l generalizing log with
  | nil => simp [runVisitor]
  | cons v vs ih => simp [runVisitor, collect, ih]

theorem Map.visited_eq (m : Map K V) (p : Path K) : m.visited p = m.visitValues p := by
  simp [Map.visited, Map.Visit_eq_runVisitor, runVisitor_collect]

theorem Map.visitedPrefixes_eq (m : Map K V) (p : Path K) :
    m.visitedPrefixes p = m.prefixValues p := by
  simp [Map.visitedPrefixes, Map.VisitPrefixes_eq_runVisitor, runVisitor_collect]

theorem runVisitor_recording_ok (fn : VisitorFunc V E σ) (l log : List V) (s s₁ : σ)
    (h : runVisitor fn l s = (s₁, none)) :
    runVisitor (recording fn) l (s, log) = ((s₁, log ++ l), none) := by
  induction l generalizing s log with
  | nil =>
    simp only [runVisitor, Prod.mk.injEq, and_true] at h
    simp [runVisitor, h]
  | cons v vs ih =>
    simp only [runVisitor] at h ⊢
    rcases hf : fn v s with ⟨s₂, _ | err⟩
    · rw [hf] at h
      simp only [recording, hf]
      simpa using ih (log ++ [v]) s₂ h
    · rw [hf] at h
      simp at h

theorem earlyAbort_runVisitor (fn : VisitorFunc V E σ) (s : σ) (full : List V) :
    EarlyAbort fn s full (runVisitor (recording fn) full (s, [])) := by
  constructor
  · intro pre post v s₁ err hfull hpre hv
    subst hfull
    rw [runVisitor_append, runVisitor_recording_ok fn pre [] s s₁ hpre]
    simp only [List.nil_append, runVisitor, recording, hv]
  · intro s₁ h
    simpa using runVisitor_recording_ok fn full [] s s₁ h

end Traversal

/-! ## Patterns and the values registered at them -/

section Patterns

variable {K V : Type} [DecidableEq K]

theorem Concrete.head {e : Element K} {p : Path K} (h : Concrete (e :: p)) :
    ∃ k, e = Element.key k := by
  cases e with
  | wildcard => exact absurd rfl (h Element.wildcard (List.mem_cons_self _ _))
  | key k => exact ⟨k, rfl⟩

theorem Concrete.tail {e : Element K} {p : Path K} (h : Concrete (e :: p)) : Concrete p :=
  fun a ha => h a (List.mem_cons_of_mem _ ha)

theorem matches_nil_right (q : Path K) : Matches q [] ↔ q = [] := by
  constructor
  · intro h
    exact List.length_eq_zero.mp h.1
  · rintro rfl
    exact ⟨rfl, fun i h₁ => absurd h₁ (Nat.not_lt_zero i)⟩

theorem not_matches_nil_cons (e : Element K) (p : Path K) : ¬ Matches [] (e :: p) := by
  intro h
  exact absurd h.1 (by simp)

theorem matches_cons_cons (a e : Element K) (q p : Path K) :
    Matches (a :: q) (e :: p) ↔ (a = Wildcard ∨ a = e) ∧ Matches q p := by
  constructor
  · rintro ⟨hl, hi⟩
    refine ⟨hi 0 (Nat.zero_lt_succ _) (Nat.zero_lt_succ _), Nat.succ.inj hl, ?_⟩
    intro i h₁ h₂
    exact hi (i + 1) (Nat.succ_lt_succ h₁) (Nat.succ_lt_succ h₂)
  · rintro ⟨h0, hl, hi⟩
    refine ⟨congrArg Nat.succ hl, ?_⟩
    intro i h₁ h₂
    cases i with
    | zero => exact h0
    | succ i => exact hi i (Nat.lt_of_succ_lt_succ h₁) (Nat.lt_of_succ_lt_succ h₂)

theorem matchesPrefix_nil_left (p : Path K) : MatchesPrefix [] p :=
  ⟨Nat.zero_le _, fun i h₁ => absurd h₁ (Nat.not_lt_zero i)⟩

theorem matchesPrefix_nil_right (q : Path K) : MatchesPrefix q [] ↔ q = [] := by
  constructor
  · intro h
    exact List.length_eq_zero.mp (Nat.le_zero.mp h.1)
  · rintro rfl
    exact matchesPrefix_nil_left _

theorem matchesPrefix_cons_cons (a e : Element K) (q p : Path K) :
    MatchesPrefix (a :: q) (e :: p) ↔ (a = Wildcard ∨ a = e) ∧ MatchesPrefix q p := by
  constructor
  · rintro ⟨hl, hi⟩
    refine ⟨hi 0 (Nat.zero_lt_succ _) (Nat.zero_lt_succ _), Nat.le_of_succ_le_succ hl, ?_⟩
    intro i h₁ h₂
    exact hi (i + 1) (Nat.succ_lt_succ h₁) (Nat.succ_lt_succ h₂)
  · rintro ⟨h0, hl, hi⟩
    refine ⟨Nat.succ_le_succ hl, ?_⟩
    intro i h₁ h₂
    cases i with
    | zero => exact h0
    | succ i => exact hi i (Nat.lt_of_succ_lt_succ h₁) (Nat.lt_of_succ_lt_succ h₂)

theorem mem_patterns (q p : Path K) : q ∈ patterns p ↔ Matches q p := by
  induction p generalizing q with
  | nil => simp [patterns, matches_nil_right]
  | cons e p ih =>
    cases q with
    | nil =>
      simp only [patterns, List.mem_append, List.mem_map]
      constructor
      · rintro (⟨x, _, hx⟩ | ⟨x, _, hx⟩) <;> cases hx
      · intro h
        exact absurd h (not_matches_nil_cons e p)
    | cons a q =>
      rw [matches_cons_cons, ← ih]
      simp only [patterns, List.mem_append, List.mem_map, List.cons.injEq]
      constructor
      · rintro (⟨x, hx, rfl, rfl⟩ | ⟨x, hx, rfl, rfl⟩)
        · exact ⟨Or.inl rfl, hx⟩
        · exact ⟨Or.inr rfl, hx⟩
      · rintro ⟨rfl | rfl, hq⟩
        · exact Or.inl ⟨q, hq, rfl, rfl⟩
        · exact Or.inr ⟨q, hq, rfl, rfl⟩

theorem mem_prefixPatterns (q p : Path K) : q ∈ prefixPatterns p ↔ MatchesPrefix q p := by
  induction p generalizing q with
  | nil => simp [prefixPatterns, matchesPrefix_nil_right]
  | cons e p ih =>
    cases q with
    | nil => simp [prefixPatterns, matchesPrefix_nil_left]
    | cons a q =>
      rw [matchesPrefix_cons_cons, ← ih]
      simp only [prefixPatterns, List.mem_cons, List.mem_append, List.mem_map, List.cons.injEq]
      constructor
      · rintro (h | ⟨x, hx, rfl, rfl⟩ | ⟨x, hx, rfl, rfl⟩)
        · cases h
        · exact ⟨Or.inl rfl, hx⟩
        · exact ⟨Or.inr rfl, hx⟩
      · rintro ⟨rfl | rfl, hq⟩
        · exact Or.inr (Or.inl ⟨q, hq, rfl, rfl⟩)
        · exact Or.inr (Or.inr ⟨q, hq, rfl, rfl⟩)

theorem cons_injective (e : Element K) : Function.Injective (fun q : Path K => e :: q) :=
  fun _ _ h => (List.cons.inj h).2

theorem nodup_patterns {p : Path K} (hp : Concrete p) : (patterns p).Nodup := by
  induction p with
  | nil => simp [patterns]
  | cons e p ih =>
    obtain ⟨k, rfl⟩ := hp.head
    have hn := ih hp.tail
    simp only [patterns]
    refine List.Nodup.append (hn.map (cons_injective _)) (hn.map (cons_injective _)) ?_
    intro x hx hx'
    simp only [List.mem_map] at hx hx'
    obtain ⟨a, _, rfl⟩ := hx
    obtain ⟨b, _, hb⟩ := hx'
    simp [Wildcard] at hb

theorem nodup_prefixPatterns {p : Path K} (hp : Concrete p) : (prefixPatterns p).Nodup := by
  induction p with
  | nil => simp [prefixPatterns]
  | cons e p ih =>
    obtain ⟨k, rfl⟩ := hp.head
    have hn := ih hp.tail
    simp only [prefixPatterns]
    refine List.nodup_cons.mpr ⟨by simp, ?_⟩
    refine List.Nodup.append (hn.map (cons_injective _)) (hn.map (cons_injective _)) ?_
    intro x hx hx'
    simp only [List.mem_map] at hx hx'
    obtain ⟨a, _, rfl⟩ := hx
    obtain ⟨b, _, hb⟩ := hx'
    simp [Wildcard] at hb

theorem filterMap_Get_wildcard (m : Map K V) (qs : List (Path K)) :
    (qs.map (fun q => Wildcard :: q)).filterMap m.Get =
      match m.wildcard with
      | none => []
      | some w => qs.filterMap w.Get := by
  rw [List.filterMap_map]
  cases h : m.wildcard with
  | none =>
    induction qs with
    | nil => rfl
    | cons q qs ih => simp [Wildcard, Map.Get_wildcard_cons, h]
  | some w =>
    simp only
    congr 1
    funext q
    simp [Wildcard, Map.Get_wildcard_cons, h]

theorem filterMap_Get_key (m : Map K V) (k : K) (qs : List (Path K)) :
    (qs.map (fun q => Element.key k :: q)).filterMap m.Get =
      match childGet (Element.key k) m.children with
      | none => []
      | some next => qs.filterMap next.Get := by
  rw [List.filterMap_map]
  cases h : childGet (Element.key k) m.children with
  | none =>
    induction qs with
    | nil => rfl
    | cons q qs ih => simp [Map.Get_key_cons, h]
  | some next =>
    simp only
    congr 1
    funext q
    simp [Map.Get_key_cons, h]

theorem Map.visitValues_eq_filterMap (m : Map K V) {p : Path K} (hp : Concrete p) :
    m.visitValues p = (patterns p).filterMap m.Get := by
  induction p generalizing m with
  | nil => cases h : m.val <;> simp [Map.visitValues, patterns, Map.Get_nil, h]
  | cons e p ih =>
    obtain ⟨k, rfl⟩ := hp.head
    simp only [Map.visitValues, patterns, List.filterMap_append, filterMap_Get_wildcard,
      filterMap_Get_key]
    congr 1
    · cases m.wildcard with
      | none => rfl
      | some w => exact ih w hp.tail
    · cases childGet (Element.key k) m.children with
      | none => rfl
      | some next => exact ih next hp.tail

theorem Map.prefixValues_eq_filterMap (m : Map K V) {p : Path K} (hp : Concrete p) :
    m.prefixValues p = (prefixPatterns p).filterMap m.Get := by
  induction p generalizing m with
  | nil => cases h : m.val <;> simp [Map.prefixValues, prefixPatterns, Map.Get_nil, h]
  | cons e p ih =>
    obtain ⟨k, rfl⟩ := hp.head
    have h0 : ([([] : Path K)]).filterMap m.Get = m.val.toList := by
      cases h : m.val <;> simp [Map.Get_nil, h]
    have hsplit : prefixPatterns (Element.key k :: p) =
        [[]] ++ ((prefixPatterns p).map (fun q => Wildcard :: q) ++
          (prefixPatterns p).map (fun q => Element.key k :: q)) := rfl
    rw [hsplit, List.filterMap_append, List.filterMap_append, h0, filterMap_Get_wildcard,
      filterMap_Get_key]
    simp only [Map.prefixValues]
    congr 2
    · cases m.wildcard with
      | none => rfl
      | some w => exact ih w hp.tail
    · cases childGet (Element.key k) m.children with
      | none => rfl
      | some next => exact ih next hp.tail

/-- The values `VisitPrefixes` reaches are, up to order, those `Visit` reaches
on the prefixes of the path, taken together. -/
theorem Map.prefixValues_perm (m : Map K V) (p : Path K) :
    (m.prefixValues p).Perm
      ((List.range (p.length + 1)).flatMap fun k => m.visitValues (p.take k)) := by
  induction p generalizing m with
  | nil => simp [Map.prefixValues, Map.visitValues, List.range_succ]
  | cons e p ih =>
    rw [List.length_cons, List.range_succ_eq_map, List.flatMap_cons, List.flatMap_map]
    simp only [List.take_zero, Function.comp_def, Nat.succ_eq_add_one, List.take_succ_cons,
      Map.visitValues, Map.prefixValues]
    refine List.Perm.append_left _ ?_
    refine List.Perm.trans ?_ (List.flatMap_append_perm _ _ _)
    refine List.Perm.append ?_ ?_
    · cases m.wildcard with
      | none => simp
      | some w => exact ih w
    · cases childGet e m.children with
      | none => simp
      | some next => exact ih next

end Patterns

/-! ## Enumeration by the traversals -/

section Enumeration

theorem runVisitor_never_fails {V E σ : Type} (fn : VisitorFunc V E σ)
    (h : ∀ v t, (fn v t).2 = none) (l : List V) (s : σ) :
    (runVisitor fn l s).2 = none := by
  induction l generalizing s with
  | nil => rfl
  | cons v vs ih =>
    simp only [runVisitor]
    rcases hf : fn v s with ⟨s₁, _ | err⟩
    · exact ih s₁
    · have := h v s
      rw [hf] at this
      cases this

/-- C3: `Visit` enumerates all matching patterns. For a concrete query path
`p`, the values passed to a visitor that never fails are the values `Get q` of
the patterns `q` of the list `patterns p` at which a value is registered, one
per pattern; that list has no repetition and holds exactly the patterns that
match `p` (same length, and at every position the wildcard or the element of
`p`). With the eight registrations of the documentation and the query
`(foo, bar, baz)` the values visited are 1 to 8, each once. -/
theorem Visit_enumerates_matching_patterns :
    (∀ (K V : Type) [DecidableEq K] (m : Map K V) (p : Path K), Concrete p →
        m.visited p = (patterns p).filterMap m.Get ∧ (patterns p).Nodup ∧
          ∀ q, q ∈ patterns p ↔ Matches q p) ∧
    (visitExample.visited (keys ["foo", "bar", "baz"])).Perm [1, 2, 3, 4, 5, 6, 7, 8] := by
  refine ⟨fun K V _ m p hp => ⟨?_, nodup_patterns hp, fun q => mem_patterns q p⟩, by decide⟩
  rw [Map.visited_eq, Map.visitValues_eq_filterMap m hp]

/-- The enumeration of C3 on the map holding `(foo)` and `(*)`, queried at
`(foo)`. -/
theorem Visit_enumerates_matching_patterns_witness :
    Concrete (keys ["foo"]) ∧
    (((Map.empty : Map String Nat).Set [Element.key "foo"] (some 1)).Set
        [Wildcard] (some 2)).visited (keys ["foo"]) = [2, 1] := by
  have hc : Concrete (keys ["foo"]) := by simp [Concrete, keys, Wildcard]
  refine ⟨hc, ?_⟩
  rw [(Visit_enumerates_matching_patterns.1 String Nat _ _ hc).1]
  decide

/-- C4: `VisitPrefixes` enumerates all prefix matches. For a concrete query
path `p`, the values passed to a visitor that never fails are the values
`Get q` of the patterns `q` of the list `prefixPatterns p` at which a value is
registered, one per pattern; that list has no repetition and holds exactly the
patterns no longer than `p` that match the elements of `p` position by
position. Up to order these are the values `Visit` passes on the prefixes
`p[:k]`, `k = 0 .. len(p)`, taken together. With the five registrations of the
documentation and the query `(foo, bar, baz)` the values visited are 1, 2, 3
and 5, each once. -/
theorem VisitPrefixes_enumerates_prefix_matches :
    (∀ (K V : Type) [DecidableEq K] (m : Map K V) (p : Path K), Concrete p →
        m.visitedPrefixes p = (prefixPatterns p).filterMap m.Get ∧
          (prefixPatterns p).Nodup ∧
          (∀ q, q ∈ prefixPatterns p ↔ MatchesPrefix q p) ∧
          (m.visitedPrefixes p).Perm
            ((List.range (p.length + 1)).flatMap fun k => m.visited (p.take k))) ∧
    (prefixExample.visitedPrefixes (keys ["foo", "bar", "baz"])).Perm [1, 2, 3, 5] := by
  refine ⟨fun K V _ m p hp =>
    ⟨?_, nodup_prefixPatterns hp, fun q => mem_prefixPatterns q p, ?_⟩, by decide⟩
  · rw [Map.visitedPrefixes_eq, Map.prefixValues_eq_filterMap m hp]
  · rw [Map.visitedPrefixes_eq]
    simpa only [Map.visited_eq] using Map.prefixValues_perm m p

/-- The enumeration of C4 on the map holding `()`, `(foo)` and `(*, bar)`,
queried at `(foo, bar)`. -/
theorem VisitPrefixes_enumerates_prefix_matches_witness :
    Concrete (keys ["foo", "bar"]) ∧
    ((((Map.empty : Map String Nat).Set [] (some 1)).Set [Element.key "foo"] (some 2)).Set
        [Wildcard, Element.key "bar"] (some 5)).visitedPrefixes (keys ["foo", "bar"])
      = [1, 5, 2] := by
  have hc : Concrete (keys ["foo", "bar"]) := by simp [Concrete, keys, Wildcard]
  refine ⟨hc, ?_⟩
  rw [(VisitPrefixes_enumerates_prefix_matches.1 String Nat _ _ hc).1]
  decide

/-- C8: early abort. For every map, query path, visitor and starting state,
`Visit` behaves as feeding the visitor, one value at a time and up to its
first error, the sequence a visitor that never fails receives: when the
visitor first fails at some value of that sequence, `Visit` returns that very
error and the visitor has received the sequence up to and including that value
and nothing after it; when it fails nowhere, `Visit` returns no error and the
visitor has received the whole sequence. The same holds of `VisitPrefixes`. A
visitor that never fails makes both return no error. -/
theorem visitor_failure_aborts_traversal {K V E σ : Type} [DecidableEq K]
    (m : Map K V) (p : Path K) (fn : VisitorFunc V E σ) (s : σ) :
    (m.Visit p fn s = runVisitor fn (m.visited p) s ∧
      EarlyAbort fn s (m.visited p) (m.Visit p (recording fn) (s, []))) ∧
    (m.VisitPrefixes p fn s = runVisitor fn (m.visitedPrefixes p) s ∧
      EarlyAbort fn s (m.visitedPrefixes p) (m.VisitPrefixes p (recording fn) (s, []))) ∧
    ((∀ v t, (fn v t).2 = none) →
      (m.Visit p fn s).2 = none ∧ (m.VisitPrefixes p fn s).2 = none) := by
  refine ⟨⟨?_, ?_⟩, ⟨?_, ?_⟩, fun h => ⟨?_, ?_⟩⟩
  · rw [Map.visited_eq, Map.Visit_eq_runVisitor]
  · rw [Map.visited_eq, Map.Visit_eq_runVisitor]
    exact earlyAbort_runVisitor fn s _
  · rw [Map.visitedPrefixes_eq, Map.VisitPrefixes_eq_runVisitor]
  · rw [Map.visitedPrefixes_eq, Map.VisitPrefixes_eq_runVisitor]
    exact earlyAbort_runVisitor fn s _
  · rw [Map.Visit_eq_runVisitor]
    exact runVisitor_never_fails fn h _ s
  · rw [Map.VisitPrefixes_eq_runVisitor]
    exact runVisitor_never_fails fn h _ s

/-- The early abort of C8 with the visitor that fails on its second
invocation: of the eight values of the documentation's example it receives 8
and 5 and `Visit` returns its error; of the four values of the prefix example
it receives 1 and 5. -/
theorem visitor_failure_aborts_traversal_witness :
    visitExample.Visit (keys ["foo", "bar", "baz"]) (recording failOnSecond) (0, [])
      = ((2, [8, 5]), some "stop") ∧
    prefixExample.VisitPrefixes (keys ["foo", "bar", "baz"]) (recording failOnSecond) (0, [])
      = ((2, [1, 5]), some "stop") :=
  ⟨(visitor_failure_aborts_traversal visitExample (keys ["foo", "bar", "baz"])
      failOnSecond 0).1.2.1 [8] [6, 3, 7, 2, 4, 1] 5 1 "stop" (by decide) (by decide) (by decide),
   (visitor_failure_aborts_traversal prefixExample (keys ["foo", "bar", "baz"])
      failOnSecond 0).2.1.2.1 [1] [2, 3] 5 1 "stop" (by decide) (by decide) (by decide)⟩

end Enumeration

/-! ## Delete -/

section DeleteFacts

variable {K V : Type} [DecidableEq K]

theorem Map.deleteWalk_nil (m : Map K V) :
    m.deleteWalk [] = some (Map.mk none m.wildcard m.children, true) := by
  simp [Map.deleteWalk]

theorem Map.deleteWalk_wildcard_cons (m : Map K V) (p : Path K) :
    m.deleteWalk (Element.wildcard :: p) =
      match m.wildcard with
      | none => none
      | some next =>
        match next.deleteWalk p with
        | none => none
        | some (next', pruning) =>
          if pruning && next'.isEmpty then
            some (Map.mk m.val none m.children, true)
          else
            some (Map.mk m.val (some next') m.children, false) := by
  simp [Map.deleteWalk]

theorem Map.deleteWalk_key_cons (m : Map K V) (k : K) (p : Path K) :
    m.deleteWalk (Element.key k :: p) =
      match childGet (Element.key k) m.children with
      | none => none
      | some next =>
        match next.deleteWalk p with
        | none => none
        | some (next', pruning) =>
          if pruning && next'.isEmpty then
            some (Map.mk m.val m.wildcard (childDelete (Element.key k) m.children), true)
          else
            some (Map.mk m.val m.wildcard (childPut (Element.key k) next' m.children), false) := by
  simp [Map.deleteWalk]

/-- The boolean `Delete` returns tells whether the walk found every node of
the path. -/
theorem Map.Delete_snd (m : Map K V) (p : Path K) :
    (m.Delete p).2 = (m.deleteWalk p).isSome := by
  unfold Map.Delete
  cases m.deleteWalk p with
  | none => rfl
  | some r => rfl

theorem Map.Delete_fst_of_some (m m' : Map K V) (p : Path K) (b : Bool)
    (h : m.deleteWalk p = some (m', b)) : m.Delete p = (m', true) := by
  unfold Map.Delete
  rw [h]

/-- After `Set p v` the walk of `Delete p` finds every node of the path. -/
theorem Map.deleteWalk_Set_isSome (m : Map K V) (p : Path K) (v : Option V) :
    ((m.Set p v).deleteWalk p).isSome = true := by
  induction p generalizing m with
  | nil => simp [Map.deleteWalk_nil]
  | cons e p ih =>
    cases e with
    | wildcard =>
      rw [Map.Set_wildcard_cons, Map.deleteWalk_wildcard_cons]
      simp only [Map.wildcard_mk]
      have h := ih ((m.wildcard).getD Map.empty)
      obtain ⟨⟨n, b⟩, hr⟩ := Option.isSome_iff_exists.mp h
      rw [hr]
      simp only
      split <;> rfl
    | key k =>
      rw [Map.Set_key_cons, Map.deleteWalk_key_cons]
      simp only [Map.children_mk, childGet_childPut_self]
      have h := ih ((childGet (Element.key k) m.children).getD Map.empty)
      obtain ⟨⟨n, b⟩, hr⟩ := Option.isSome_iff_exists.mp h
      rw [hr]
      simp only
      split <;> rfl

/-- After a `Delete p` that found the path, `Get p` is absent. -/
theorem Map.Get_of_deleteWalk (m m' : Map K V) (p : Path K) (b : Bool)
    (h : m.deleteWalk p = some (m', b)) : m'.Get p = none := by
  induction p generalizing m m' b with
  | nil =>
    rw [Map.deleteWalk_nil] at h
    simp only [Option.some.injEq, Prod.mk.injEq] at h
    rw [← h.1, Map.Get_nil]
    rfl
  | cons e p ih =>
    cases e with
    | wildcard =>
      rw [Map.deleteWalk_wildcard_cons] at h
      rw [Map.Get_wildcard_cons]
      cases hw : m.wildcard with
      | none => rw [hw] at h; cases h
      | some next =>
        rw [hw] at h
        simp only at h
        cases hr : next.deleteWalk p with
        | none => rw [hr] at h; cases h
        | some r =>
          obtain ⟨next', pr⟩ := r
          rw [hr] at h
          simp only at h
          split at h
          · simp only [Option.some.injEq, Prod.mk.injEq] at h
            rw [← h.1]
            rfl
          · simp only [Option.some.injEq, Prod.mk.injEq] at h
            rw [← h.1]
            exact ih next next' pr hr
    | key k =>
      rw [Map.deleteWalk_key_cons] at h
      rw [Map.Get_key_cons]
      cases hc : childGet (Element.key k) m.children with
      | none => rw [hc] at h; cases h
      | some next =>
        rw [hc] at h
        simp only at h
        cases hr : next.deleteWalk p with
        | none => rw [hr] at h; cases h
        | some r =>
          obtain ⟨next', pr⟩ := r
          rw [hr] at h
          simp only at h
          split at h
          · simp only [Option.some.injEq, Prod.mk.injEq] at h
            rw [← h.1]
            simp only [Map.children_mk, childGet_childDelete_self]
          · simp only [Option.some.injEq, Prod.mk.injEq] at h
            rw [← h.1]
            simp only [Map.children_mk, childGet_childPut_self]
            exact ih next next' pr hr

end DeleteFacts

section DeleteClaims

/-- Whenever a value is registered at `p`, `Delete p` returns true. -/
theorem Map.Delete_true_of_Get {K V : Type} [DecidableEq K] (m : Map K V) (p : Path K)
    (h : m.Get p ≠ none) : (m.Delete p).2 = true := by
  rw [Map.Delete_snd]
  induction p generalizing m with
  | nil => simp [Map.deleteWalk_nil]
  | cons e p ih =>
    cases e with
    | wildcard =>
      rw [Map.Get_wildcard_cons] at h
      rw [Map.deleteWalk_wildcard_cons]
      cases hw : m.wildcard with
      | none => rw [hw] at h; exact absurd rfl h
      | some next =>
        rw [hw] at h
        obtain ⟨⟨n, b⟩, hr⟩ := Option.isSome_iff_exists.mp (ih next h)
        simp only [hr]
        split <;> rfl
    | key k =>
      rw [Map.Get_key_cons] at h
      rw [Map.deleteWalk_key_cons]
      cases hc : childGet (Element.key k) m.children with
      | none => rw [hc] at h; exact absurd rfl h
      | some next =>
        rw [hc] at h
        obtain ⟨⟨n, b⟩, hr⟩ := Option.isSome_iff_exists.mp (ih next h)
        simp only [hr]
        split <;> rfl

/-- C5, the code at the failing input. In the map holding only
`(foo, bar) -> 1` no value is registered at `(foo)`, yet `Delete (foo)` returns
true, and it deletes nothing: `(foo, bar)` still holds 1. Likewise `Delete ()`
on the empty map returns true. -/
theorem Delete_returns_true_without_value :
    ((Map.empty : Map String Nat).Set [Element.key "foo", Element.key "bar"] (some 1)).Get
        [Element.key "foo"] = none ∧
    (((Map.empty : Map String Nat).Set [Element.key "foo", Element.key "bar"] (some 1)).Delete
        [Element.key "foo"]).2 = true ∧
    (((Map.empty : Map String Nat).Set [Element.key "foo", Element.key "bar"] (some 1)).Delete
        [Element.key "foo"]).1.Get [Element.key "foo", Element.key "bar"] = some 1 ∧
    (Map.empty : Map String Nat).Get [] = none ∧
    ((Map.empty : Map String Nat).Delete []).2 = true := by
  decide

/-- C6: `Delete` removes a registered entry. After `Set p v` with a value that
is not `nil`, `Delete p` returns true and `Get p` on the resulting map is
absent, for every map and every path. -/
theorem Delete_after_Set_removes_entry {K V : Type} [DecidableEq K]
    (m : Map K V) (p : Path K) (v : V) :
    ((m.Set p (some v)).Delete p).2 = true ∧
      ((m.Set p (some v)).Delete p).1.Get p = none := by
  have h := Map.deleteWalk_Set_isSome m p (some v)
  obtain ⟨⟨m', b⟩, hr⟩ := Option.isSome_iff_exists.mp h
  rw [Map.Delete_fst_of_some _ m' p b hr]
  exact ⟨rfl, Map.Get_of_deleteWalk _ m' p b hr⟩

/-- C7, the code at the failing inputs. On the empty map with the empty path:
after `Set () 1` and a first `Delete ()`, the second `Delete ()` returns true.
On the map holding `(foo, bar) -> 1` with the path `(foo)`: after
`Set (foo) 2` and a first `Delete (foo)`, the second `Delete (foo)` returns
true. On the empty map with the path `(foo, bar)` of the documentation the
first call returns true and the second false. -/
theorem second_Delete_returns_true :
    ((((Map.empty : Map String Nat).Set [] (some 1)).Delete []).1.Delete []).2 = true ∧
    ((((((Map.empty : Map String Nat).Set [Element.key "foo", Element.key "bar"] (some 1)).Set
        [Element.key "foo"] (some 2)).Delete [Element.key "foo"]).1).Delete
        [Element.key "foo"]).2 = true ∧
    (((Map.empty : Map String Nat).Set [Element.key "foo", Element.key "bar"] (some 0)).Delete
        [Element.key "foo", Element.key "bar"]).2 = true ∧
    ((((Map.empty : Map String Nat).Set [Element.key "foo", Element.key "bar"] (some 0)).Delete
        [Element.key "foo", Element.key "bar"]).1.Delete
        [Element.key "foo", Element.key "bar"]).2 = false := by
  decide

end DeleteClaims

/-! ## Pruning -/

section Pruning

variable {K V : Type} [DecidableEq K]

theorem Map.noDangling_mk (v : Option V) (w : Option (Map K V)) (cs) :
    (Map.mk v w cs).noDangling = (noDanglingWildcard w && noDanglingChildren cs) := by
  simp [Map.noDangling]

theorem noDanglingWildcard_some (w : Map K V) :
    noDanglingWildcard (some w) = (!w.isEmpty && w.noDangling) := by
  simp [noDanglingWildcard]

theorem noDanglingChildren_cons (k : Element K) (c : Map K V) (rest) :
    noDanglingChildren ((k, c) :: rest) =
      (!c.isEmpty && c.noDangling && noDanglingChildren rest) := by
  simp [noDanglingChildren]

theorem Map.noDangling_iff (m : Map K V) :
    m.noDangling = true ↔
      noDanglingWildcard m.wildcard = true ∧ noDanglingChildren m.children = true := by
  cases m
  simp [Map.noDangling_mk]

theorem Map.noDangling_empty : (Map.empty : Map K V).noDangling = true := by
  simp [Map.empty, Map.noDangling, noDanglingWildcard, noDanglingChildren]

theorem noDanglingChildren_childPut (e : Element K) (c : Map K V) (cs)
    (hcs : noDanglingChildren cs = true) (hc : c.isEmpty = false)
    (hd : c.noDangling = true) : noDanglingChildren (childPut e c cs) = true := by
  induction cs with
  | nil => simp [childPut, noDanglingChildren, hc, hd]
  | cons hd' tl ih =>
    obtain ⟨k, c'⟩ := hd'
    rw [noDanglingChildren_cons] at hcs
    simp only [Bool.and_eq_true] at hcs
    by_cases hk : k = e
    · simp [childPut, hk, noDanglingChildren_cons, hc, hd, hcs.2]
    · simp [childPut, hk, noDanglingChildren_cons, hcs.1.1, hcs.1.2, ih hcs.2]

theorem noDanglingChildren_childDelete (e : Element K) (cs : List (Element K × Map K V))
    (hcs : noDanglingChildren cs = true) : noDanglingChildren (childDelete e cs) = true := by
  induction cs with
  | nil => rfl
  | cons hd tl ih =>
    obtain ⟨k, c⟩ := hd
    rw [noDanglingChildren_cons] at hcs
    simp only [Bool.and_eq_true] at hcs
    by_cases hk : k = e
    · have : childDelete e ((k, c) :: tl) = childDelete e tl := by
        simp [childDelete, hk]
      rw [this]
      exact ih hcs.2
    · have : childDelete e ((k, c) :: tl) = (k, c) :: childDelete e tl := by
        simp [childDelete, hk]
      rw [this, noDanglingChildren_cons]
      simp [hcs.1.1, hcs.1.2, ih hcs.2]

theorem noDanglingChildren_childGet (e : Element K) (c : Map K V) (cs)
    (hcs : noDanglingChildren cs = true) (hg : childGet e cs = some c) :
    c.isEmpty = false ∧ c.noDangling = true := by
  induction cs with
  | nil => cases hg
  | cons hd tl ih =>
    obtain ⟨k, c'⟩ := hd
    rw [noDanglingChildren_cons] at hcs
    simp only [Bool.and_eq_true, Bool.not_eq_true'] at hcs
    by_cases hk : k = e
    · simp only [childGet, hk, if_true, Option.some.injEq] at hg
      subst hg
      exact hcs.1
    · simp only [childGet, hk, if_false] at hg
      exact ih hcs.2 hg

theorem childPut_ne_nil (e : Element K) (c : Map K V) (cs) : childPut e c cs ≠ [] := by
  cases cs with
  | nil => simp [childPut]
  | cons hd tl =>
    obtain ⟨k, c'⟩ := hd
    by_cases hk : k = e <;> simp [childPut, hk]

/-- A map on which a value that is not `nil` has just been set is not empty. -/
theorem Map.Set_isEmpty (m : Map K V) (p : Path K) (v : V) :
    (m.Set p (some v)).isEmpty = false := by
  cases p with
  | nil => simp [Map.Set, Map.isEmpty]
  | cons e p =>
    cases e with
    | wildcard => simp [Map.Set_wildcard_cons, Map.isEmpty]
    | key k => simp [Map.Set_key_cons, Map.isEmpty, childPut_ne_nil]

/-- `Set` with a value that is not `nil` creates no empty node. -/
theorem Map.Set_noDangling (m : Map K V) (p : Path K) (v : V)
    (h : m.noDangling = true) : (m.Set p (some v)).noDangling = true := by
  induction p generalizing m with
  | nil =>
    rw [Map.noDangling_iff] at h
    simp [Map.Set, Map.noDangling_mk, h.1, h.2]
  | cons e p ih =>
    rw [Map.noDangling_iff] at h
    cases e with
    | wildcard =>
      rw [Map.Set_wildcard_cons, Map.noDangling_mk, noDanglingWildcard_some,
        Map.Set_isEmpty]
      have hw : ((m.wildcard).getD Map.empty).noDangling = true := by
        cases hw : m.wildcard with
        | none => exact Map.noDangling_empty
        | some w =>
          have := h.1
          rw [hw, noDanglingWildcard_some] at this
          simp only [Bool.and_eq_true] at this
          exact this.2
      simp [ih _ hw, h.2]
    | key k =>
      rw [Map.Set_key_cons, Map.noDangling_mk]
      have hc : ((childGet (Element.key k) m.children).getD Map.empty).noDangling = true := by
        cases hc : childGet (Element.key k) m.children with
        | none => exact Map.noDangling_empty
        | some c => exact (noDanglingChildren_childGet _ c _ h.2 hc).2
      simp [h.1, noDanglingChildren_childPut _ _ _ h.2 (Map.Set_isEmpty _ p v) (ih _ hc)]

/-- The walk of `Delete` leaves no empty node below the node it returns, and
when the pruning loop has stopped below that node, the node is not empty. -/
theorem Map.deleteWalk_noDangling (m m' : Map K V) (p : Path K) (b : Bool)
    (h : m.noDangling = true) (hr : m.deleteWalk p = some (m', b)) :
    m'.noDangling = true ∧ (b = false → m'.isEmpty = false) := by
  induction p generalizing m m' b with
  | nil =>
    rw [Map.deleteWalk_nil] at hr
    simp only [Option.some.injEq, Prod.mk.injEq] at hr
    rw [Map.noDangling_iff] at h
    rw [← hr.1, ← hr.2, Map.noDangling_mk]
    simp [h.1, h.2]
  | cons e p ih =>
    rw [Map.noDangling_iff] at h
    cases e with
    | wildcard =>
      rw [Map.deleteWalk_wildcard_cons] at hr
      cases hw : m.wildcard with
      | none => rw [hw] at hr; cases hr
      | some next =>
        rw [hw] at hr
        simp only at hr
        have hn := h.1
        rw [hw, noDanglingWildcard_some] at hn
        simp only [Bool.and_eq_true] at hn
        cases hd : next.deleteWalk p with
        | none => rw [hd] at hr; cases hr
        | some r =>
          obtain ⟨next', pr⟩ := r
          rw [hd] at hr
          simp only at hr
          obtain ⟨ih₁, ih₂⟩ := ih next next' pr hn.2 hd
          split at hr
          · simp only [Option.some.injEq, Prod.mk.injEq] at hr
            rw [← hr.1, ← hr.2, Map.noDangling_mk]
            simp [noDanglingWildcard, h.2]
          · rename_i hcond
            simp only [Option.some.injEq, Prod.mk.injEq] at hr
            rw [← hr.1, ← hr.2, Map.noDangling_mk, noDanglingWildcard_some]
            have hne : next'.isEmpty = false := by
              cases pr with
              | false => exact ih₂ rfl
              | true => simpa using hcond
            refine ⟨by simp [hne, ih₁, h.2], fun _ => ?_⟩
            simp [Map.isEmpty]
    | key k =>
      rw [Map.deleteWalk_key_cons] at hr
      cases hc : childGet (Element.key k) m.children with
      | none => rw [hc] at hr; cases hr
      | some next =>
        rw [hc] at hr
        simp only at hr
        have hn := noDanglingChildren_childGet _ next _ h.2 hc
        cases hd : next.deleteWalk p with
        | none => rw [hd] at hr; cases hr
        | some r =>
          obtain ⟨next', pr⟩ := r
          rw [hd] at hr
          simp only at hr
          obtain ⟨ih₁, ih₂⟩ := ih next next' pr hn.2 hd
          split at hr
          · simp only [Option.some.injEq, Prod.mk.injEq] at hr
            rw [← hr.1, ← hr.2, Map.noDangling_mk]
            simp [h.1, noDanglingChildren_childDelete _ _ h.2]
          · rename_i hcond
            simp only [Option.some.injEq, Prod.mk.injEq] at hr
            rw [← hr.1, ← hr.2, Map.noDangling_mk]
            have hne : next'.isEmpty = false := by
              cases pr with
              | false => exact ih₂ rfl
              | true => simpa using hcond
            refine ⟨by simp [h.1, noDanglingChildren_childPut _ _ _ h.2 hne ih₁], fun _ => ?_⟩
            simp [Map.isEmpty, childPut_ne_nil]

theorem Map.Delete_noDangling (m : Map K V) (p : Path K) (h : m.noDangling = true) :
    (m.Delete p).1.noDangling = true := by
  unfold Map.Delete
  cases hr : m.deleteWalk p with
  | none => exact h
  | some r =>
    obtain ⟨m', b⟩ := r
    exact (Map.deleteWalk_noDangling m m' p b h hr).1

theorem Op.apply_noDangling (op : Op K V) (m : Map K V) (h : m.noDangling = true) :
    (op.apply m).noDangling = true := by
  cases op with
  | set p v => exact Map.Set_noDangling m p v h
  | delete p => exact Map.Delete_noDangling m p h

theorem foldl_apply_noDangling (ops : List (Op K V)) (m : Map K V)
    (h : m.noDangling = true) :
    (ops.foldl (fun m op => op.apply m) m).noDangling = true := by
  induction ops generalizing m with
  | nil => exact h
  | cons op ops ih => exact ih _ (Op.apply_noDangling op m h)

/-- On the empty map, `Delete p` right after `Set p v` prunes every node that
`Set` created. -/
theorem Map.deleteWalk_Set_empty (p : Path K) (v : Option V) :
    ((Map.empty : Map K V).Set p v).deleteWalk p = some (Map.empty, true) := by
  induction p with
  | nil => rfl
  | cons e p ih =>
    cases e with
    | wildcard =>
      rw [Map.Set_wildcard_cons, Map.deleteWalk_wildcard_cons]
      simp only [Map.wildcard_empty, Option.getD_none, Map.wildcard_mk, ih]
      rfl
    | key k =>
      rw [Map.Set_key_cons, Map.deleteWalk_key_cons]
      simp only [Map.children_mk, childGet_childPut_self, Map.children_empty, childGet_nil,
        Option.getD_none, ih]
      simp [Map.empty, Map.isEmpty, childPut, childDelete]

end Pruning

section PruningClaims

/-- The restriction of `Op.set` to values that are not `nil` matters: `Set`
with `nil` on a fresh path leaves a node without value and without children. -/
theorem Set_nil_leaves_empty_node :
    ((Map.empty : Map String Nat).Set [Element.key "foo"] none).noDangling = false := by
  decide

/-- C9: no dangling empty node. In the map obtained from the empty map by any
finite sequence of `Set` calls with values that are not `nil` and of `Delete`
calls, whatever they return, no node other than the root has at once no
value, no wildcard child and no children. -/
theorem no_dangling_empty_node {K V : Type} [DecidableEq K] (ops : List (Op K V)) :
    (Map.run ops).noDangling = true :=
  foldl_apply_noDangling ops Map.empty Map.noDangling_empty

/-- C10: pruning. On the empty map, `Set p v` with a value that is not `nil`
followed by `Delete p` leaves a root without value, without wildcard child and
without children, for every path `p`; `Delete` returns true and `String` then
returns the empty text. -/
theorem Set_then_Delete_prunes_everything {K V : Type} [DecidableEq K]
    (p : Path K) (v : V) (fmtVal : V → String) (keyString : K → String)
    (quote : String → String) :
    (((Map.empty : Map K V).Set p (some v)).Delete p).2 = true ∧
    (((Map.empty : Map K V).Set p (some v)).Delete p).1.val = none ∧
    (((Map.empty : Map K V).Set p (some v)).Delete p).1.wildcard = none ∧
    (((Map.empty : Map K V).Set p (some v)).Delete p).1.children = [] ∧
    (((Map.empty : Map K V).Set p (some v)).Delete p).1.String fmtVal keyString quote = "" := by
  rw [Map.Delete_fst_of_some _ _ p _ (Map.deleteWalk_Set_empty p (some v))]
  exact ⟨rfl, rfl, rfl, rfl, rfl⟩

end PruningClaims

/-! ## Delete of a path that is not there -/

section DeleteMissing

variable {K V : Type} [DecidableEq K]

theorem Map.walk_wildcard_cons (m : Map K V) (p : Path K) :
    m.walk (Element.wildcard :: p) =
      match m.wildcard with
      | none => none
      | some w => w.walk p := by
  simp [Map.walk]

theorem Map.walk_key_cons (m : Map K V) (k : K) (p : Path K) :
    m.walk (Element.key k :: p) =
      match childGet (Element.key k) m.children with
      | none => none
      | some next => next.walk p := by
  simp [Map.walk]

/-- The value `Get` returns is the value of the node the exact walk reaches. -/
theorem Map.Get_eq_walk (m : Map K V) (p : Path K) :
    m.Get p = (m.walk p).bind Map.val := by
  induction p generalizing m with
  | nil => simp [Map.walk, Map.Get_nil]
  | cons e p ih =>
    cases e with
    | wildcard =>
      rw [Map.Get_wildcard_cons, Map.walk_wildcard_cons]
      cases m.wildcard with
      | none => rfl
      | some w => exact ih w
    | key k =>
      rw [Map.Get_key_cons, Map.walk_key_cons]
      cases childGet (Element.key k) m.children with
      | none => rfl
      | some next => exact ih next

/-- The walk of `Delete` fails exactly when the exact walk meets a missing
child. -/
theorem Map.deleteWalk_isSome (m : Map K V) (p : Path K) :
    (m.deleteWalk p).isSome = (m.walk p).isSome := by
  induction p generalizing m with
  | nil => simp [Map.deleteWalk_nil, Map.walk]
  | cons e p ih =>
    cases e with
    | wildcard =>
      rw [Map.deleteWalk_wildcard_cons, Map.walk_wildcard_cons]
      cases m.wildcard with
      | none => rfl
      | some w =>
        simp only
        rw [← ih w]
        cases w.deleteWalk p with
        | none => rfl
        | some r =>
          simp only
          split <;> rfl
    | key k =>
      rw [Map.deleteWalk_key_cons, Map.walk_key_cons]
      cases childGet (Element.key k) m.children with
      | none => rfl
      | some next =>
        simp only
        rw [← ih next]
        cases next.deleteWalk p with
        | none => rfl
        | some r =>
          simp only
          split <;> rfl

/-- C11: `Delete` of a path that is not found changes nothing. When the exact
walk of `p` from the root meets a missing child (a missing wildcard child at a
wildcard element, a missing children entry at a concrete element), `Delete p`
returns false and the map it leaves is the map it was given. -/
theorem Delete_missing_path_changes_nothing {K V : Type} [DecidableEq K]
    (m : Map K V) (p : Path K) (h : m.walk p = none) :
    m.Delete p = (m, false) := by
  have hd : m.deleteWalk p = none := by
    have := Map.deleteWalk_isSome m p
    rw [h] at this
    simpa using this
  unfold Map.Delete
  rw [hd]

/-- The walk of `(foo, baz)` in the map holding `(foo, bar)` meets a missing
child, and `Delete (foo, baz)` returns false and leaves the map as it was. -/
theorem Delete_missing_path_changes_nothing_witness :
    ((Map.empty : Map String Nat).Set [Element.key "foo", Element.key "bar"] (some 1)).walk
        [Element.key "foo", Element.key "baz"] = none ∧
    ((Map.empty : Map String Nat).Set [Element.key "foo", Element.key "bar"] (some 1)).Delete
        [Element.key "foo", Element.key "baz"] =
      ((Map.empty : Map String Nat).Set [Element.key "foo", Element.key "bar"] (some 1), false) :=
  ⟨by rfl, Delete_missing_path_changes_nothing _ _ (by rfl)⟩

end DeleteMissing

/-! ## The wildcard is never a key of `children` -/

section WildcardKey

variable {K V : Type} [DecidableEq K]

theorem Map.noWildcardKey_mk (v : Option V) (w : Option (Map K V)) (cs) :
    (Map.mk v w cs).noWildcardKey = (noWildcardKeyWildcard w && noWildcardKeyChildren cs) := by
  simp [Map.noWildcardKey]

theorem noWildcardKeyWildcard_some (w : Map K V) :
    noWildcardKeyWildcard (some w) = w.noWildcardKey := by
  simp [noWildcardKeyWildcard]

theorem noWildcardKeyChildren_cons (k : Element K) (c : Map K V) (rest) :
    noWildcardKeyChildren ((k, c) :: rest) =
      (!k.Equal Wildcard && c.noWildcardKey && noWildcardKeyChildren rest) := by
  simp [noWildcardKeyChildren]

theorem Map.noWildcardKey_iff (m : Map K V) :
    m.noWildcardKey = true ↔
      noWildcardKeyWildcard m.wildcard = true ∧ noWildcardKeyChildren m.children = true := by
  cases m
  simp [Map.noWildcardKey_mk]

theorem Map.noWildcardKey_empty : (Map.empty : Map K V).noWildcardKey = true := by
  simp [Map.empty, Map.noWildcardKey, noWildcardKeyWildcard, noWildcardKeyChildren]

theorem noWildcardKeyWildcard_getD (w : Option (Map K V))
    (h : noWildcardKeyWildcard w = true) : (w.getD Map.empty).noWildcardKey = true := by
  cases w with
  | none => exact Map.noWildcardKey_empty
  | some w => simpa [noWildcardKeyWildcard_some] using h

theorem noWildcardKeyChildren_childGet (e : Element K) (c : Map K V) (cs)
    (hcs : noWildcardKeyChildren cs = true) (hg : childGet e cs = some c) :
    c.noWildcardKey = true := by
  induction cs with
  | nil => cases hg
  | cons hd tl ih =>
    obtain ⟨k, c'⟩ := hd
    rw [noWildcardKeyChildren_cons] at hcs
    simp only [Bool.and_eq_true] at hcs
    by_cases hk : k = e
    · simp only [childGet, hk, if_true, Option.some.injEq] at hg
      subst hg
      exact hcs.1.2
    · simp only [childGet, hk, if_false] at hg
      exact ih hcs.2 hg

theorem noWildcardKeyChildren_getD (e : Element K) (cs : List (Element K × Map K V))
    (hcs : noWildcardKeyChildren cs = true) :
    ((childGet e cs).getD Map.empty).noWildcardKey = true := by
  cases hg : childGet e cs with
  | none => exact Map.noWildcardKey_empty
  | some c => exact noWildcardKeyChildren_childGet e c cs hcs hg

/-- In a trie without wildcard keys the children entry of the wildcard is
missing at every node. -/
theorem childGet_Wildcard_of_noWildcardKey (cs : List (Element K × Map K V))
    (hcs : noWildcardKeyChildren cs = true) : childGet Wildcard cs = none := by
  induction cs with
  | nil => rfl
  | cons hd tl ih =>
    obtain ⟨k, c⟩ := hd
    rw [noWildcardKeyChildren_cons] at hcs
    simp only [Bool.and_eq_true] at hcs
    cases k with
    | wildcard => simp at hcs
    | key k => simpa [childGet, Wildcard] using ih hcs.2

theorem noWildcardKeyChildren_childPut (k : K) (c : Map K V) (cs)
    (hcs : noWildcardKeyChildren cs = true) (hc : c.noWildcardKey = true) :
    noWildcardKeyChildren (childPut (Element.key k) c cs) = true := by
  induction cs with
  | nil => simp [childPut, noWildcardKeyChildren, hc]
  | cons hd tl ih =>
    obtain ⟨k', c'⟩ := hd
    rw [noWildcardKeyChildren_cons] at hcs
    simp only [Bool.and_eq_true] at hcs
    by_cases hk : k' = Element.key k
    · simp [childPut, hk, noWildcardKeyChildren_cons, hc, hcs.2]
    · simp [childPut, hk, noWildcardKeyChildren_cons, hcs.1.1, hcs.1.2, ih hcs.2]

theorem noWildcardKeyChildren_childDelete (e : Element K) (cs : List (Element K × Map K V))
    (hcs : noWildcardKeyChildren cs = true) :
    noWildcardKeyChildren (childDelete e cs) = true := by
  induction cs with
  | nil => rfl
  | cons hd tl ih =>
    obtain ⟨k, c⟩ := hd
    rw [noWildcardKeyChildren_cons] at hcs
    simp only [Bool.and_eq_true] at hcs
    by_cases hk : k = e
    · have : childDelete e ((k, c) :: tl) = childDelete e tl := by
        simp [childDelete, hk]
      rw [this]
      exact ih hcs.2
    · have : childDelete e ((k, c) :: tl) = (k, c) :: childDelete e tl := by
        simp [childDelete, hk]
      rw [this, noWildcardKeyChildren_cons]
      simp [hcs.1.1, hcs.1.2, ih hcs.2]

/-- `Set`, with any value, puts no wildcard key into a `children` mapping. -/
theorem Map.Set_noWildcardKey (m : Map K V) (p : Path K) (v : Option V)
    (h : m.noWildcardKey = true) : (m.Set p v).noWildcardKey = true := by
  induction p generalizing m with
  | nil =>
    rw [Map.noWildcardKey_iff] at h
    simp [Map.Set, Map.noWildcardKey_mk, h.1, h.2]
  | cons e p ih =>
    rw [Map.noWildcardKey_iff] at h
    cases e with
    | wildcard =>
      rw [Map.Set_wildcard_cons, Map.noWildcardKey_mk, noWildcardKeyWildcard_some]
      simp [ih _ (noWildcardKeyWildcard_getD _ h.1), h.2]
    | key k =>
      rw [Map.Set_key_cons, Map.noWildcardKey_mk]
      simp [h.1, noWildcardKeyChildren_childPut k _ _ h.2
        (ih _ (noWildcardKeyChildren_getD _ _ h.2))]

theorem Map.deleteWalk_noWildcardKey (m m' : Map K V) (p : Path K) (b : Bool)
    (h : m.noWildcardKey = true) (hr : m.deleteWalk p = some (m', b)) :
    m'.noWildcardKey = true := by
  induction p generalizing m m' b with
  | nil =>
    rw [Map.deleteWalk_nil] at hr
    simp only [Option.some.injEq, Prod.mk.injEq] at hr
    rw [Map.noWildcardKey_iff] at h
    rw [← hr.1, Map.noWildcardKey_mk]
    simp [h.1, h.2]
  | cons e p ih =>
    rw [Map.noWildcardKey_iff] at h
    cases e with
    | wildcard =>
      rw [Map.deleteWalk_wildcard_cons] at hr
      cases hw : m.wildcard with
      | none => rw [hw] at hr; cases hr
      | some next =>
        rw [hw] at hr
        simp only at hr
        have hn := h.1
        rw [hw, noWildcardKeyWildcard_some] at hn
        cases hd : next.deleteWalk p with
        | none => rw [hd] at hr; cases hr
        | some r =>
          obtain ⟨next', pr⟩ := r
          rw [hd] at hr
          simp only at hr
          have ih₁ := ih next next' pr hn hd
          split at hr
          · simp only [Option.some.injEq, Prod.mk.injEq] at hr
            rw [← hr.1, Map.noWildcardKey_mk]
            simp [noWildcardKeyWildcard, h.2]
          · simp only [Option.some.injEq, Prod.mk.injEq] at hr
            rw [← hr.1, Map.noWildcardKey_mk, noWildcardKeyWildcard_some]
            simp [ih₁, h.2]
    | key k =>
      rw [Map.deleteWalk_key_cons] at hr
      cases hc : childGet (Element.key k) m.children with
      | none => rw [hc] at hr; cases hr
      | some next =>
        rw [hc] at hr
        simp only at hr
        have hn := noWildcardKeyChildren_childGet _ next _ h.2 hc
        cases hd : next.deleteWalk p with
        | none => rw [hd] at hr; cases hr
        | some r =>
          obtain ⟨next', pr⟩ := r
          rw [hd] at hr
          simp only at hr
          have ih₁ := ih next next' pr hn hd
          split at hr
          · simp only [Option.some.injEq, Prod.mk.injEq] at hr
            rw [← hr.1, Map.noWildcardKey_mk]
            simp [h.1, noWildcardKeyChildren_childDelete _ _ h.2]
          · simp only [Option.some.injEq, Prod.mk.injEq] at hr
            rw [← hr.1, Map.noWildcardKey_mk]
            simp [h.1, noWildcardKeyChildren_childPut k _ _ h.2 ih₁]

theorem Map.Delete_noWildcardKey (m : Map K V) (p : Path K) (h : m.noWildcardKey = true) :
    (m.Delete p).1.noWildcardKey = true := by
  unfold Map.Delete
  cases hr : m.deleteWalk p with
  | none => exact h
  | some r =>
    obtain ⟨m', b⟩ := r
    exact Map.deleteWalk_noWildcardKey m m' p b h hr

theorem Map.after_noWildcardKey (calls : List (Call K V)) :
    (Map.after calls).noWildcardKey = true := by
  have key : ∀ (cs : List (Call K V)) (m : Map K V), m.noWildcardKey = true →
      (cs.foldl (fun m c => c.apply m) m).noWildcardKey = true := by
    intro cs
    induction cs with
    | nil => intro m h; exact h
    | cons c cs ih =>
      intro m h
      refine ih _ ?_
      cases c with
      | set p v => exact Map.Set_noWildcardKey m p v h
      | delete p => exact Map.Delete_noWildcardKey m p h
  exact key calls Map.empty Map.noWildcardKey_empty

end WildcardKey

section WildcardKeyClaims

/-- C14: the wildcard is never a key of a `children` mapping. In the map
obtained from the empty map by any finite sequence of `Set` and `Delete` calls
with arbitrary paths and values, no `children` mapping has a key equal to the
wildcard; and `Set` at a path that starts with the wildcard leaves `children`
as it is and stores the rest of the path under the wildcard slot. -/
theorem Wildcard_never_a_children_key {K V : Type} [DecidableEq K]
    (calls : List (Call K V)) (m : Map K V) (p : Path K) (v : Option V) :
    (Map.after calls).noWildcardKey = true ∧
    (m.Set (Wildcard :: p) v).children = m.children ∧
    (m.Set (Wildcard :: p) v).wildcard = some (((m.wildcard).getD Map.empty).Set p v) := by
  refine ⟨Map.after_noWildcardKey calls, ?_, ?_⟩
  · simp [Wildcard, Map.Set_wildcard_cons]
  · simp [Wildcard, Map.Set_wildcard_cons]

end WildcardKeyClaims

/-! ## Queries with wildcard elements -/

section QueryPatterns

variable {K V : Type} [DecidableEq K]

theorem queryPatterns_wildcard_cons (p : Path K) :
    queryPatterns (Element.wildcard :: p) = (queryPatterns p).map (fun q => Wildcard :: q) := by
  simp [queryPatterns]

theorem queryPatterns_key_cons (k : K) (p : Path K) :
    queryPatterns (Element.key k :: p) =
      (queryPatterns p).map (fun q => Wildcard :: q) ++
        (queryPatterns p).map (fun q => Element.key k :: q) := by
  simp [queryPatterns]

theorem queryPrefixPatterns_wildcard_cons (p : Path K) :
    queryPrefixPatterns (Element.wildcard :: p) =
      [] :: (queryPrefixPatterns p).map (fun q => Wildcard :: q) := by
  simp [queryPrefixPatterns]

theorem queryPrefixPatterns_key_cons (k : K) (p : Path K) :
    queryPrefixPatterns (Element.key k :: p) =
      [] :: ((queryPrefixPatterns p).map (fun q => Wildcard :: q) ++
        (queryPrefixPatterns p).map (fun q => Element.key k :: q)) := by
  simp [queryPrefixPatterns]

theorem mem_queryPatterns (q p : Path K) : q ∈ queryPatterns p ↔ Matches q p := by
  induction p generalizing q with
  | nil => simp [queryPatterns, matches_nil_right]
  | cons e p ih =>
    cases q with
    | nil =>
      constructor
      · intro h
        cases e with
        | wildcard =>
          rw [queryPatterns_wildcard_cons, List.mem_map] at h
          obtain ⟨x, _, hx⟩ := h
          cases hx
        | key k =>
          rw [queryPatterns_key_cons, List.mem_append, List.mem_map, List.mem_map] at h
          rcases h with ⟨x, _, hx⟩ | ⟨x, _, hx⟩ <;> cases hx
      · intro h
        exact absurd h (not_matches_nil_cons e p)
    | cons a q =>
      rw [matches_cons_cons, ← ih]
      cases e with
      | wildcard =>
        rw [queryPatterns_wildcard_cons]
        simp only [List.mem_map, List.cons.injEq]
        constructor
        · rintro ⟨x, hx, rfl, rfl⟩
          exact ⟨Or.inl rfl, hx⟩
        · rintro ⟨h | h, hq⟩
          · exact ⟨q, hq, h.symm, rfl⟩
          · exact ⟨q, hq, h.symm, rfl⟩
      | key k =>
        rw [queryPatterns_key_cons]
        simp only [List.mem_append, List.mem_map, List.cons.injEq]
        constructor
        · rintro (⟨x, hx, rfl, rfl⟩ | ⟨x, hx, rfl, rfl⟩)
          · exact ⟨Or.inl rfl, hx⟩
          · exact ⟨Or.inr rfl, hx⟩
        · rintro ⟨rfl | rfl, hq⟩
          · exact Or.inl ⟨q, hq, rfl, rfl⟩
          · exact Or.inr ⟨q, hq, rfl, rfl⟩

theorem mem_queryPrefixPatterns (q p : Path K) :
    q ∈ queryPrefixPatterns p ↔ MatchesPrefix q p := by
  induction p generalizing q with
  | nil => simp [queryPrefixPatterns, matchesPrefix_nil_right]
  | cons e p ih =>
    cases q with
    | nil =>
      cases e <;>
        simp [queryPrefixPatterns_wildcard_cons, queryPrefixPatterns_key_cons,
          matchesPrefix_nil_left]
    | cons a q =>
      rw [matchesPrefix_cons_cons, ← ih]
      cases e with
      | wildcard =>
        rw [queryPrefixPatterns_wildcard_cons]
        simp only [List.mem_cons, List.mem_map, List.cons.injEq]
        constructor
        · rintro (h | ⟨x, hx, rfl, rfl⟩)
          · cases h
          · exact ⟨Or.inl rfl, hx⟩
        · rintro ⟨h | h, hq⟩
          · exact Or.inr ⟨q, hq, h.symm, rfl⟩
          · exact Or.inr ⟨q, hq, h.symm, rfl⟩
      | key k =>
        rw [queryPrefixPatterns_key_cons]
        simp only [List.mem_cons, List.mem_append, List.mem_map, List.cons.injEq]
        constructor
        · rintro (h | ⟨x, hx, rfl, rfl⟩ | ⟨x, hx, rfl, rfl⟩)
          · cases h
          · exact ⟨Or.inl rfl, hx⟩
          · exact ⟨Or.inr rfl, hx⟩
        · rintro ⟨rfl | rfl, hq⟩
          · exact Or.inr (Or.inl ⟨q, hq, rfl, rfl⟩)
          · exact Or.inr (Or.inr ⟨q, hq, rfl, rfl⟩)

theorem disjoint_wildcard_key (k : K) (l₁ l₂ : List (Path K)) :
    List.Disjoint (l₁.map (fun q => Wildcard :: q)) (l₂.map (fun q => Element.key k :: q)) := by
  intro x hx hx'
  simp only [List.mem_map] at hx hx'
  obtain ⟨a, _, rfl⟩ := hx
  obtain ⟨b, _, hb⟩ := hx'
  simp [Wildcard] at hb

theorem nodup_queryPatterns (p : Path K) : (queryPatterns p).Nodup := by
  induction p with
  | nil => simp [queryPatterns]
  | cons e p ih =>
    cases e with
    | wildcard =>
      rw [queryPatterns_wildcard_cons]
      exact ih.map (cons_injective _)
    | key k =>
      rw [queryPatterns_key_cons]
      exact List.Nodup.append (ih.map (cons_injective _)) (ih.map (cons_injective _))
        (disjoint_wildcard_key k _ _)

theorem nodup_queryPrefixPatterns (p : Path K) : (queryPrefixPatterns p).Nodup := by
  induction p with
  | nil => simp [queryPrefixPatterns]
  | cons e p ih =>
    cases e with
    | wildcard =>
      rw [queryPrefixPatterns_wildcard_cons]
      exact List.nodup_cons.mpr ⟨by simp, ih.map (cons_injective _)⟩
    | key k =>
      rw [queryPrefixPatterns_key_cons]
      refine List.nodup_cons.mpr ⟨by simp, ?_⟩
      exact List.Nodup.append (ih.map (cons_injective _)) (ih.map (cons_injective _))
        (disjoint_wildcard_key k _ _)

/-- In a trie without wildcard keys, `Visit` reaches the values registered at
the patterns of `queryPatterns`, whatever the query path holds. -/
theorem Map.visitValues_eq_filterMap_query (m : Map K V) (p : Path K)
    (h : m.noWildcardKey = true) :
    m.visitValues p = (queryPatterns p).filterMap m.Get := by
  induction p generalizing m with
  | nil => cases hv : m.val <;> simp [Map.visitValues, queryPatterns, Map.Get_nil, hv]
  | cons e p ih =>
    rw [Map.noWildcardKey_iff] at h
    have hw : (match m.wildcard with
        | none => []
        | some w => w.visitValues p) =
        (match m.wildcard with
        | none => []
        | some w => (queryPatterns p).filterMap w.Get) := by
      cases hw : m.wildcard with
      | none => rfl
      | some w =>
        have := h.1
        rw [hw, noWildcardKeyWildcard_some] at this
        exact ih w this
    cases e with
    | wildcard =>
      have hc := childGet_Wildcard_of_noWildcardKey _ h.2
      simp only [Wildcard] at hc
      simp only [Map.visitValues, hc, List.append_nil, queryPatterns_wildcard_cons,
        filterMap_Get_wildcard]
      exact hw
    | key k =>
      simp only [Map.visitValues, queryPatterns_key_cons, List.filterMap_append,
        filterMap_Get_wildcard, filterMap_Get_key]
      rw [hw]
      congr 1
      cases hc : childGet (Element.key k) m.children with
      | none => rfl
      | some next => exact ih next (noWildcardKeyChildren_childGet _ next _ h.2 hc)

/-- In a trie without wildcard keys, `VisitPrefixes` reaches the values
registered at the patterns of `queryPrefixPatterns`. -/
theorem Map.prefixValues_eq_filterMap_query (m : Map K V) (p : Path K)
    (h : m.noWildcardKey = true) :
    m.prefixValues p = (queryPrefixPatterns p).filterMap m.Get := by
  induction p generalizing m with
  | nil => cases hv : m.val <;> simp [Map.prefixValues, queryPrefixPatterns, Map.Get_nil, hv]
  | cons e p ih =>
    rw [Map.noWildcardKey_iff] at h
    have h0 : ∀ l : List (Path K), (([] : Path K) :: l).filterMap m.Get =
        m.val.toList ++ l.filterMap m.Get := by
      intro l
      cases hv : m.val <;> simp [List.filterMap_cons, Map.Get_nil, hv]
    have hw : (match m.wildcard with
        | none => []
        | some w => w.prefixValues p) =
        (match m.wildcard with
        | none => []
        | some w => (queryPrefixPatterns p).filterMap w.Get) := by
      cases hw : m.wildcard with
      | none => rfl
      | some w =>
        have := h.1
        rw [hw, noWildcardKeyWildcard_some] at this
        exact ih w this
    cases e with
    | wildcard =>
      have hc := childGet_Wildcard_of_noWildcardKey _ h.2
      simp only [Wildcard] at hc
      simp only [Map.prefixValues, hc, List.append_nil, queryPrefixPatterns_wildcard_cons, h0,
        filterMap_Get_wildcard]
      rw [hw]
    | key k =>
      simp only [Map.prefixValues, queryPrefixPatterns_key_cons, h0, List.filterMap_append,
        filterMap_Get_wildcard, filterMap_Get_key]
      rw [hw]
      congr 2
      cases hc : childGet (Element.key k) m.children with
      | none => rfl
      | some next => exact ih next (noWildcardKeyChildren_childGet _ next _ h.2 hc)

end QueryPatterns

section QueryClaims

/-- A `children` mapping with a wildcard key is what `noWildcardKey` rules
out. -/
theorem noWildcardKey_rejects_wildcard_key :
    (Map.mk none none [(Wildcard, Map.mk (some 1) none [])] : Map String Nat).noWildcardKey
      = false := by
  decide

/-- C15: a wildcard in a `Visit` query gets no special treatment. On a map
obtained from the empty map by `Set` and `Delete` calls, for every query path
`p`, wildcard elements included, the values passed to a visitor that never
fails are the values `Get q` of the patterns `q` of the list `queryPatterns p`
at which a value is registered; that list has no repetition and holds exactly
the patterns with the length of `p` that have, at every position, the wildcard
or the element of `p`, so that a pattern visited has the wildcard wherever `p`
has it. On the map holding only `(foo) -> 1` the query `(*)` visits nothing. -/
theorem Visit_wildcard_query_is_literal :
    (∀ (K V : Type) [DecidableEq K] (calls : List (Call K V)) (p : Path K),
        (Map.after calls).visited p = (queryPatterns p).filterMap (Map.after calls).Get ∧
          (queryPatterns p).Nodup ∧
          (∀ q, q ∈ queryPatterns p ↔ Matches q p) ∧
          (∀ q, q ∈ queryPatterns p → ∀ (i : Nat) (h₁ : i < q.length) (h₂ : i < p.length),
            p.get ⟨i, h₂⟩ = Wildcard → q.get ⟨i, h₁⟩ = Wildcard)) ∧
    ((Map.empty : Map String Nat).Set [Element.key "foo"] (some 1)).visited [Wildcard] = [] := by
  refine ⟨fun K V _ calls p =>
    ⟨?_, nodup_queryPatterns p, fun q => mem_queryPatterns q p, ?_⟩, by decide⟩
  · rw [Map.visited_eq]
    exact Map.visitValues_eq_filterMap_query _ p (Map.after_noWildcardKey calls)
  · intro q hq i h₁ h₂ hp
    rcases ((mem_queryPatterns q p).mp hq).2 i h₁ h₂ with h | h
    · exact h
    · rw [h, hp]

end QueryClaims

/-! ## The order of the visits -/

section Order

variable {K V : Type} [DecidableEq K]

theorem map_split (f : Path K → Path K) {qs l₁ l₂ l₃ : List (Path K)} {q r : Path K}
    (h : qs = l₁ ++ q :: (l₂ ++ r :: l₃)) :
    qs.map f = l₁.map f ++ f q :: (l₂.map f ++ f r :: l₃.map f) := by
  subst h
  simp

theorem filterMap_split (m : Map K V) {l₁ l₂ l₃ : List (Path K)} {q r : Path K} {a b : V}
    (ha : m.Get q = some a) (hb : m.Get r = some b) :
    (l₁ ++ q :: (l₂ ++ r :: l₃)).filterMap m.Get =
      l₁.filterMap m.Get ++ a :: (l₂.filterMap m.Get ++ b :: l₃.filterMap m.Get) := by
  simp [List.filterMap_append, List.filterMap_cons, ha, hb]

theorem tail_mem_of_mem_patterns {e a : Element K} {p q : Path K}
    (h : a :: q ∈ patterns (e :: p)) : q ∈ patterns p := by
  rw [mem_patterns, matches_cons_cons] at h
  exact (mem_patterns q p).mpr h.2

/-- In `patterns p`, a pattern that has the wildcard where another one, equal
to it before that position, has a concrete element, comes first. -/
theorem patterns_wildcard_first (p q r : Path K) (i : Nat) (e : Element K)
    (hq : q ∈ patterns p) (hr : r ∈ patterns p) (hpre : q.take i = r.take i)
    (hqi : q[i]? = some Wildcard) (hri : r[i]? = some e) (he : e ≠ Wildcard) :
    ∃ l₁ l₂ l₃, patterns p = l₁ ++ q :: (l₂ ++ r :: l₃) := by
  induction p generalizing q r i with
  | nil =>
    simp only [patterns, List.mem_singleton] at hq
    subst hq
    simp at hqi
  | cons e₀ p ih =>
    cases q with
    | nil => simp at hqi
    | cons a q =>
      cases r with
      | nil => simp at hri
      | cons b r =>
        have hq' := tail_mem_of_mem_patterns hq
        have hr' := tail_mem_of_mem_patterns hr
        have hqa := ((matches_cons_cons a e₀ q p).mp ((mem_patterns _ _).mp hq)).1
        have hrb := ((matches_cons_cons b e₀ r p).mp ((mem_patterns _ _).mp hr)).1
        cases i with
        | zero =>
          simp only [List.getElem?_cons_zero, Option.some.injEq] at hqi hri
          subst hqi hri
          have hb : b = e₀ := by
            rcases hrb with h | h
            · exact absurd h he
            · exact h
          subst hb
          obtain ⟨A, B, hA⟩ := List.append_of_mem hq'
          obtain ⟨C, D, hC⟩ := List.append_of_mem hr'
          refine ⟨A.map (fun q => Wildcard :: q),
            B.map (fun q => Wildcard :: q) ++ C.map (fun q => b :: q),
            D.map (fun q => b :: q), ?_⟩
          have h₁ : (patterns p).map (fun q => Wildcard :: q) =
              A.map (fun q => Wildcard :: q) ++
                (Wildcard :: q) :: B.map (fun q => Wildcard :: q) := by
            conv_lhs => rw [hA]
            simp
          have h₂ : (patterns p).map (fun q => b :: q) =
              C.map (fun q => b :: q) ++ (b :: r) :: D.map (fun q => b :: q) := by
            conv_lhs => rw [hC]
            simp
          simp only [patterns]
          rw [h₁, h₂]
          simp
        | succ i =>
          simp only [List.take_succ_cons, List.cons.injEq] at hpre
          simp only [List.getElem?_cons_succ] at hqi hri
          obtain ⟨hab, hpre⟩ := hpre
          subst hab
          obtain ⟨l₁, l₂, l₃, hl⟩ := ih q r i hq' hr' hpre hqi hri
          rcases hqa with h | h
          · subst h
            refine ⟨l₁.map (fun q => Wildcard :: q), l₂.map (fun q => Wildcard :: q),
              l₃.map (fun q => Wildcard :: q) ++ (patterns p).map (fun q => e₀ :: q), ?_⟩
            simp only [patterns]
            rw [map_split (fun q => Wildcard :: q) hl]
            simp
          · subst h
            refine ⟨(patterns p).map (fun q => Wildcard :: q) ++ l₁.map (fun q => a :: q),
              l₂.map (fun q => a :: q), l₃.map (fun q => a :: q), ?_⟩
            simp only [patterns]
            rw [map_split (fun q => a :: q) hl]
            simp

/-- In `queryPrefixPatterns p`, a pattern comes before its proper extensions. -/
theorem queryPrefixPatterns_prefix_first (p q r : Path K)
    (hq : q ∈ queryPrefixPatterns p) (hr : r ∈ queryPrefixPatterns p)
    (hqr : q <+: r) (hne : q ≠ r) :
    ∃ l₁ l₂ l₃, queryPrefixPatterns p = l₁ ++ q :: (l₂ ++ r :: l₃) := by
  induction p generalizing q r with
  | nil =>
    simp only [queryPrefixPatterns, List.mem_singleton] at hq hr
    exact absurd (hq.trans hr.symm) hne
  | cons e p ih =>
    cases q with
    | nil =>
      have hr0 : r ≠ [] := fun h => hne h.symm
      cases e with
      | wildcard =>
        rw [queryPrefixPatterns_wildcard_cons] at hr ⊢
        rcases List.mem_cons.mp hr with h | h
        · exact absurd h hr0
        · obtain ⟨C, D, hC⟩ := List.append_of_mem h
          exact ⟨[], C, D, by rw [hC]; rfl⟩
      | key k =>
        rw [queryPrefixPatterns_key_cons] at hr ⊢
        rcases List.mem_cons.mp hr with h | h
        · exact absurd h hr0
        · obtain ⟨C, D, hC⟩ := List.append_of_mem h
          exact ⟨[], C, D, by rw [hC]; rfl⟩
    | cons a q =>
      cases r with
      | nil => exact absurd (List.prefix_nil.mp hqr) (by simp)
      | cons b r =>
        obtain ⟨hab, hqr'⟩ := List.cons_prefix_cons.mp hqr
        subst hab
        have hne' : q ≠ r := fun h => hne (by rw [h])
        have hq' : q ∈ queryPrefixPatterns p := by
          rw [mem_queryPrefixPatterns] at hq ⊢
          exact ((matchesPrefix_cons_cons _ _ _ _).mp hq).2
        have hr' : r ∈ queryPrefixPatterns p := by
          rw [mem_queryPrefixPatterns] at hr ⊢
          exact ((matchesPrefix_cons_cons _ _ _ _).mp hr).2
        have hqa := ((matchesPrefix_cons_cons a e q p).mp
          ((mem_queryPrefixPatterns _ _).mp hq)).1
        obtain ⟨l₁, l₂, l₃, hl⟩ := ih q r hq' hr' hqr' hne'
        cases e with
        | wildcard =>
          have ha : a = Wildcard := by
            rcases hqa with h | h <;> exact h
          subst ha
          refine ⟨[] :: l₁.map (fun q => Wildcard :: q), l₂.map (fun q => Wildcard :: q),
            l₃.map (fun q => Wildcard :: q), ?_⟩
          rw [queryPrefixPatterns_wildcard_cons, map_split (fun q => Wildcard :: q) hl]
          simp
        | key k =>
          rw [queryPrefixPatterns_key_cons]
          rcases hqa with h | h
          · subst h
            refine ⟨[] :: l₁.map (fun q => Wildcard :: q), l₂.map (fun q => Wildcard :: q),
              l₃.map (fun q => Wildcard :: q) ++
                (queryPrefixPatterns p).map (fun q => Element.key k :: q), ?_⟩
            rw [map_split (fun q => Wildcard :: q) hl]
            simp
          · subst h
            refine ⟨[] :: ((queryPrefixPatterns p).map (fun q => Wildcard :: q) ++
                l₁.map (fun q => Element.key k :: q)),
              l₂.map (fun q => Element.key k :: q), l₃.map (fun q => Element.key k :: q), ?_⟩
            rw [map_split (fun q => Element.key k :: q) hl]
            simp

theorem tail_mem_of_mem_queryPrefixPatterns {e a : Element K} {p q : Path K}
    (h : a :: q ∈ queryPrefixPatterns (e :: p)) : q ∈ queryPrefixPatterns p := by
  rw [mem_queryPrefixPatterns, matchesPrefix_cons_cons] at h
  exact (mem_queryPrefixPatterns q p).mpr h.2

/-- In `queryPrefixPatterns p`, a pattern that has the wildcard where another
one, equal to it before that position, has a concrete element, comes first,
whatever the lengths of the two patterns. -/
theorem queryPrefixPatterns_wildcard_first (p q r : Path K) (i : Nat) (e : Element K)
    (hq : q ∈ queryPrefixPatterns p) (hr : r ∈ queryPrefixPatterns p)
    (hpre : q.take i = r.take i)
    (hqi : q[i]? = some Wildcard) (hri : r[i]? = some e) (he : e ≠ Wildcard) :
    ∃ l₁ l₂ l₃, queryPrefixPatterns p = l₁ ++ q :: (l₂ ++ r :: l₃) := by
  induction p generalizing q r i with
  | nil =>
    simp only [queryPrefixPatterns, List.mem_singleton] at hq
    subst hq
    simp at hqi
  | cons e₀ p ih =>
    cases q with
    | nil => simp at hqi
    | cons a q =>
      cases r with
      | nil => simp at hri
      | cons b r =>
        have hq' := tail_mem_of_mem_queryPrefixPatterns hq
        have hr' := tail_mem_of_mem_queryPrefixPatterns hr
        have hqa := ((matchesPrefix_cons_cons a e₀ q p).mp
          ((mem_queryPrefixPatterns _ _).mp hq)).1
        have hrb := ((matchesPrefix_cons_cons b e₀ r p).mp
          ((mem_queryPrefixPatterns _ _).mp hr)).1
        cases i with
        | zero =>
          simp only [List.getElem?_cons_zero, Option.some.injEq] at hqi hri
          subst hqi hri
          have hb : b = e₀ := by
            rcases hrb with h | h
            · exact absurd h he
            · exact h
          subst hb
          cases b with
          | wildcard => exact absurd rfl he
          | key k =>
            obtain ⟨A, B, hA⟩ := List.append_of_mem hq'
            obtain ⟨C, D, hC⟩ := List.append_of_mem hr'
            refine ⟨[] :: A.map (fun q => Wildcard :: q),
              B.map (fun q => Wildcard :: q) ++ C.map (fun q => Element.key k :: q),
              D.map (fun q => Element.key k :: q), ?_⟩
            have h₁ : (queryPrefixPatterns p).map (fun q => Wildcard :: q) =
                A.map (fun q => Wildcard :: q) ++
                  (Wildcard :: q) :: B.map (fun q => Wildcard :: q) := by
              conv_lhs => rw [hA]
              simp
            have h₂ : (queryPrefixPatterns p).map (fun q => Element.key k :: q) =
                C.map (fun q => Element.key k :: q) ++
                  (Element.key k :: r) :: D.map (fun q => Element.key k :: q) := by
              conv_lhs => rw [hC]
              simp
            rw [queryPrefixPatterns_key_cons, h₁, h₂]
            simp
        | succ i =>
          simp only [List.take_succ_cons, List.cons.injEq] at hpre
          simp only [List.getElem?_cons_succ] at hqi hri
          obtain ⟨hab, hpre⟩ := hpre
          subst hab
          obtain ⟨l₁, l₂, l₃, hl⟩ := ih q r i hq' hr' hpre hqi hri
          cases e₀ with
          | wildcard =>
            have ha : a = Wildcard := by
              rcases hqa with h | h <;> exact h
            subst ha
            refine ⟨[] :: l₁.map (fun q => Wildcard :: q), l₂.map (fun q => Wildcard :: q),
              l₃.map (fun q => Wildcard :: q), ?_⟩
            rw [queryPrefixPatterns_wildcard_cons, map_split (fun q => Wildcard :: q) hl]
            simp
          | key k =>
            rw [queryPrefixPatterns_key_cons]
            rcases hqa with h | h
            · subst h
              refine ⟨[] :: l₁.map (fun q => Wildcard :: q), l₂.map (fun q => Wildcard :: q),
                l₃.map (fun q => Wildcard :: q) ++
                  (queryPrefixPatterns p).map (fun q => Element.key k :: q), ?_⟩
              rw [map_split (fun q => Wildcard :: q) hl]
              simp
            · subst h
              refine ⟨[] :: ((queryPrefixPatterns p).map (fun q => Wildcard :: q) ++
                  l₁.map (fun q => Element.key k :: q)),
                l₂.map (fun q => Element.key k :: q), l₃.map (fun q => Element.key k :: q), ?_⟩
              rw [map_split (fun q => Element.key k :: q) hl]
              simp

theorem Concrete.getElem?_ne {p : Path K} (hp : Concrete p) {i : Nat} {e : Element K}
    (h : p[i]? = some e) : e ≠ Wildcard :=
  hp e (List.getElem?_mem h)

end Order

section OrderClaims

/-- C12: `Visit` goes through the wildcard branch first, then the concrete
child. For a concrete query path `p` and two patterns `q` and `r` that match
`p`, hold the values `a` and `b`, agree before position `i` and have there the
wildcard (`q`) and the element of `p` (`r`): in the list `patterns p`, whose
registered values are the values visited in order, `q` stands before `r`, and
so `a` is passed to the visitor before `b`. With the eight registrations of
the documentation and the query `(foo, bar, baz)` the visitor receives
8, 5, 6, 3, 7, 2, 4, 1 in that order. -/
theorem Visit_wildcard_branch_first :
    (∀ (K V : Type) [DecidableEq K] (m : Map K V) (p q r : Path K) (i : Nat) (a b : V),
        Concrete p → Matches q p → Matches r p →
        q.take i = r.take i → q[i]? = some Wildcard → r[i]? = p[i]? →
        m.Get q = some a → m.Get r = some b →
        ∃ l₁ l₂ l₃, patterns p = l₁ ++ q :: (l₂ ++ r :: l₃) ∧
          m.visited p =
            l₁.filterMap m.Get ++ a :: (l₂.filterMap m.Get ++ b :: l₃.filterMap m.Get)) ∧
    visitExample.visited (keys ["foo", "bar", "baz"]) = [8, 5, 6, 3, 7, 2, 4, 1] := by
  refine ⟨?_, by decide⟩
  intro K V _ m p q r i a b hp hq hr hpre hqi hri ha hb
  have hi : i < p.length := by
    rw [← hq.1]
    by_contra hcon
    rw [List.getElem?_eq_none (Nat.le_of_not_lt hcon)] at hqi
    cases hqi
  have hpi : p[i]? = some p[i] := List.getElem?_eq_getElem hi
  rw [hpi] at hri
  obtain ⟨l₁, l₂, l₃, hl⟩ := patterns_wildcard_first p q r i p[i]
    ((mem_patterns q p).mpr hq) ((mem_patterns r p).mpr hr) hpre hqi hri
    (hp.getElem?_ne hpi)
  refine ⟨l₁, l₂, l₃, hl, ?_⟩
  rw [Map.visited_eq, Map.visitValues_eq_filterMap m hp, hl]
  exact filterMap_split m ha hb

/-- The order of C12 on the map holding `(foo) -> 1` and `(*) -> 2`, queried
at `(foo)`: the value 2 of `(*)` is passed before the value 1 of `(foo)`. -/
theorem Visit_wildcard_branch_first_witness :
    ∃ l₁ l₂ l₃, patterns (keys ["foo"]) = l₁ ++ [Wildcard] :: (l₂ ++ [Element.key "foo"] :: l₃) ∧
      (((Map.empty : Map String Nat).Set [Element.key "foo"] (some 1)).Set
          [Wildcard] (some 2)).visited (keys ["foo"]) =
        l₁.filterMap (((Map.empty : Map String Nat).Set [Element.key "foo"] (some 1)).Set
          [Wildcard] (some 2)).Get ++ 2 ::
          (l₂.filterMap (((Map.empty : Map String Nat).Set [Element.key "foo"] (some 1)).Set
            [Wildcard] (some 2)).Get ++ 1 ::
            l₃.filterMap (((Map.empty : Map String Nat).Set [Element.key "foo"] (some 1)).Set
              [Wildcard] (some 2)).Get) :=
  Visit_wildcard_branch_first.1 String Nat _ (keys ["foo"]) [Wildcard] [Element.key "foo"] 0 2 1
    (by simp [Concrete, keys, Wildcard])
    ((mem_patterns _ _).mp (by decide)) ((mem_patterns _ _).mp (by decide))
    (by rfl) (by rfl) (by rfl) (by decide) (by decide)

/-- C13 as stated fails on the example of the documentation: for the query
`(foo, bar, baz)` the values are visited in the order 1, 5, 2, 3, and the
value 5 of the pattern `(*, bar)`, of length 2, is passed before the value 2
of the pattern `(foo)`, of length 1. -/
theorem VisitPrefixes_longer_pattern_first :
    prefixExample.visitedPrefixes (keys ["foo", "bar", "baz"]) = [1, 5, 2, 3] ∧
    prefixExample.Get [Wildcard, Element.key "bar"] = some 5 ∧
    prefixExample.Get [Element.key "foo"] = some 2 ∧
    ¬ ShortestPrefixFirst prefixExample (keys ["foo", "bar", "baz"]) := by
  refine ⟨by decide, by decide, by decide, ?_⟩
  intro h
  have := h [Wildcard, Element.key "bar"] [Element.key "foo"] 5 2 [1] [] [3]
    ((mem_prefixPatterns _ _).mp (by decide)) ((mem_prefixPatterns _ _).mp (by decide))
    (by decide) (by decide) (by decide)
  exact absurd this (by decide)

/-- C13, amended: `VisitPrefixes` reports a registered pattern before its
registered extensions, and the wildcard branch before the concrete one. On a
map obtained from the empty map by `Set` and `Delete` calls, for every query
path `p` and two patterns `q` and `r` that match a prefix of `p` and hold the
values `a` and `b`: when `q` is a proper prefix of `r`, and also when `q` and
`r` agree before a position `i` where `q` has the wildcard and `r` a concrete
element, whatever the lengths of `q` and `r`, then in the list
`queryPrefixPatterns p`, whose registered values are the values visited in
order, `q` stands before `r`, and so `a` is passed to the visitor before `b`.
In particular, on every map, the value registered at the empty path, when
present, is the first value visited. -/
theorem VisitPrefixes_pattern_before_its_extensions :
    (∀ (K V : Type) [DecidableEq K] (calls : List (Call K V)) (p q r : Path K) (a b : V),
        MatchesPrefix q p → MatchesPrefix r p → q <+: r → q ≠ r →
        (Map.after calls).Get q = some a → (Map.after calls).Get r = some b →
        ∃ l₁ l₂ l₃, queryPrefixPatterns p = l₁ ++ q :: (l₂ ++ r :: l₃) ∧
          (Map.after calls).visitedPrefixes p =
            l₁.filterMap (Map.after calls).Get ++ a ::
              (l₂.filterMap (Map.after calls).Get ++ b ::
                l₃.filterMap (Map.after calls).Get)) ∧
    (∀ (K V : Type) [DecidableEq K] (calls : List (Call K V)) (p q r : Path K) (i : Nat)
        (e : Element K) (a b : V),
        MatchesPrefix q p → MatchesPrefix r p →
        q.take i = r.take i → q[i]? = some Wildcard → r[i]? = some e → e ≠ Wildcard →
        (Map.after calls).Get q = some a → (Map.after calls).Get r = some b →
        ∃ l₁ l₂ l₃, queryPrefixPatterns p = l₁ ++ q :: (l₂ ++ r :: l₃) ∧
          (Map.after calls).visitedPrefixes p =
            l₁.filterMap (Map.after calls).Get ++ a ::
              (l₂.filterMap (Map.after calls).Get ++ b ::
                l₃.filterMap (Map.after calls).Get)) ∧
    (∀ (K V : Type) [DecidableEq K] (m : Map K V) (p : Path K) (a : V),
        m.Get [] = some a → ∃ rest, m.visitedPrefixes p = a :: rest) := by
  refine ⟨?_, ?_, ?_⟩
  · intro K V _ calls p q r a b hq hr hqr hne ha hb
    obtain ⟨l₁, l₂, l₃, hl⟩ := queryPrefixPatterns_prefix_first p q r
      ((mem_queryPrefixPatterns q p).mpr hq) ((mem_queryPrefixPatterns r p).mpr hr) hqr hne
    refine ⟨l₁, l₂, l₃, hl, ?_⟩
    rw [Map.visitedPrefixes_eq,
      Map.prefixValues_eq_filterMap_query _ p (Map.after_noWildcardKey calls), hl]
    exact filterMap_split _ ha hb
  · intro K V _ calls p q r i e a b hq hr hpre hqi hri he ha hb
    obtain ⟨l₁, l₂, l₃, hl⟩ := queryPrefixPatterns_wildcard_first p q r i e
      ((mem_queryPrefixPatterns q p).mpr hq) ((mem_queryPrefixPatterns r p).mpr hr)
      hpre hqi hri he
    refine ⟨l₁, l₂, l₃, hl, ?_⟩
    rw [Map.visitedPrefixes_eq,
      Map.prefixValues_eq_filterMap_query _ p (Map.after_noWildcardKey calls), hl]
    exact filterMap_split _ ha hb
  · intro K V _ m p a ha
    rw [Map.Get_nil] at ha
    rw [Map.visitedPrefixes_eq]
    cases p with
    | nil => exact ⟨[], by simp [Map.prefixValues, ha]⟩
    | cons e p =>
      refine ⟨(match m.wildcard with
        | none => []
        | some w => w.prefixValues p) ++
        (match childGet e m.children with
        | none => []
        | some next => next.prefixValues p), ?_⟩
      simp [Map.prefixValues, ha]

/-- The order of C13, amended, at concrete inputs. On the map built by
`Set (foo) 2` and `Set (foo, bar) 3`, queried at `(foo, bar)`, the value 2 of
`(foo)` is passed before the value 3 of its extension `(foo, bar)`. On the map
built by `Set (*, bar) 5` and `Set (foo) 2`, queried at `(foo, bar)`, the
value 5 of `(*, bar)`, on the wildcard branch, is passed before the value 2 of
the shorter pattern `(foo)`. -/
theorem VisitPrefixes_pattern_before_its_extensions_witness :
    (∃ l₁ l₂ l₃, queryPrefixPatterns (keys ["foo", "bar"]) =
        l₁ ++ [Element.key "foo"] :: (l₂ ++ [Element.key "foo", Element.key "bar"] :: l₃) ∧
      (Map.after [Call.set [Element.key "foo"] (some 2),
          Call.set [Element.key "foo", Element.key "bar"] (some 3)]).visitedPrefixes
          (keys ["foo", "bar"]) =
        l₁.filterMap (Map.after [Call.set [Element.key "foo"] (some 2),
          Call.set [Element.key "foo", Element.key "bar"] (some 3)]).Get ++ 2 ::
          (l₂.filterMap (Map.after [Call.set [Element.key "foo"] (some 2),
            Call.set [Element.key "foo", Element.key "bar"] (some 3)]).Get ++ 3 ::
            l₃.filterMap (Map.after [Call.set [Element.key "foo"] (some 2),
              Call.set [Element.key "foo", Element.key "bar"] (some 3)]).Get)) ∧
    (∃ l₁ l₂ l₃, queryPrefixPatterns (keys ["foo", "bar"]) =
        l₁ ++ [Wildcard, Element.key "bar"] :: (l₂ ++ [Element.key "foo"] :: l₃) ∧
      (Map.after [Call.set [Wildcard, Element.key "bar"] (some 5),
          Call.set [Element.key "foo"] (some 2)]).visitedPrefixes (keys ["foo", "bar"]) =
        l₁.filterMap (Map.after [Call.set [Wildcard, Element.key "bar"] (some 5),
          Call.set [Element.key "foo"] (some 2)]).Get ++ 5 ::
          (l₂.filterMap (Map.after [Call.set [Wildcard, Element.key "bar"] (some 5),
            Call.set [Element.key "foo"] (some 2)]).Get ++ 2 ::
            l₃.filterMap (Map.after [Call.set [Wildcard, Element.key "bar"] (some 5),
              Call.set [Element.key "foo"] (some 2)]).Get)) ∧
    (Map.after [Call.set [Wildcard, Element.key "bar"] (some 5),
        Call.set [Element.key "foo"] (some 2)]).visitedPrefixes (keys ["foo", "bar"]) = [5, 2] :=
  ⟨VisitPrefixes_pattern_before_its_extensions.1 String Nat
      [Call.set [Element.key "foo"] (some 2),
        Call.set [Element.key "foo", Element.key "bar"] (some 3)]
      (keys ["foo", "bar"]) [Element.key "foo"] [Element.key "foo", Element.key "bar"] 2 3
      ((mem_queryPrefixPatterns _ _).mp (by decide))
      ((mem_queryPrefixPatterns _ _).mp (by decide))
      (by decide) (by decide) (by decide) (by decide),
    VisitPrefixes_pattern_before_its_extensions.2.1 String Nat
      [Call.set [Wildcard, Element.key "bar"] (some 5), Call.set [Element.key "foo"] (some 2)]
      (keys ["foo", "bar"]) [Wildcard, Element.key "bar"] [Element.key "foo"] 0
      (Element.key "foo") 5 2
      ((mem_queryPrefixPatterns _ _).mp (by decide))
      ((mem_queryPrefixPatterns _ _).mp (by decide))
      (by rfl) (by rfl) (by rfl) (by decide) (by decide) (by decide),
    by decide⟩

end OrderClaims

/-! ## The number of visits -/

section FanOut

variable {K V E σ : Type} [DecidableEq K]

theorem Map.visitValues_length_le (m : Map K V) (p : Path K) :
    (m.visitValues p).length ≤ 2 ^ p.length := by
  induction p generalizing m with
  | nil => cases h : m.val <;> simp [Map.visitValues, h]
  | cons e p ih =>
    simp only [Map.visitValues, List.length_append, List.length_cons, pow_succ]
    have hw : (match m.wildcard with
        | none => []
        | some w => w.visitValues p).length ≤ 2 ^ p.length := by
      cases m.wildcard with
      | none => simp
      | some w => exact ih w
    have hc : (match childGet e m.children with
        | none => []
        | some next => next.visitValues p).length ≤ 2 ^ p.length := by
      cases childGet e m.children with
      | none => simp
      | some next => exact ih next
    omega

theorem runVisitor_recording_length (fn : VisitorFunc V E σ) (l log : List V) (s : σ) :
    (runVisitor (recording fn) l (s, log)).1.2.length ≤ log.length + l.length := by
  induction l generalizing s log with
  | nil => simp [runVisitor]
  | cons v vs ih =>
    simp only [runVisitor, recording]
    rcases hf : (fn v s).2 with _ | err
    · have := ih (log ++ [v]) (fn v s).1
      simp only [List.length_append, List.length_cons, List.length_nil] at this ⊢
      omega
    · simp

theorem patterns_length (p : Path K) : (patterns p).length = 2 ^ p.length := by
  induction p with
  | nil => rfl
  | cons e p ih =>
    simp only [patterns, List.length_append, List.length_map, ih, List.length_cons, pow_succ]
    omega

theorem Get_registerAll_of_Get (qs : List (Path K)) (v : V) (m : Map K V) (q : Path K)
    (h : m.Get q = some v) : (registerAll qs v m).Get q = some v := by
  induction qs generalizing m with
  | nil => exact h
  | cons q₀ qs ih =>
    refine ih (m.Set q₀ (some v)) ?_
    by_cases hq : q₀ = q
    · subst hq
      exact Map.Get_Set_self m q₀ (some v)
    · rw [Map.Get_Set_ne m hq]
      exact h

theorem Get_registerAll_of_mem (qs : List (Path K)) (v : V) (m : Map K V) (q : Path K)
    (h : q ∈ qs) : (registerAll qs v m).Get q = some v := by
  induction qs generalizing m with
  | nil => cases h
  | cons q₀ qs ih =>
    rcases List.mem_cons.mp h with h | h
    · subst h
      exact Get_registerAll_of_Get qs v _ q (Map.Get_Set_self m q (some v))
    · exact ih (m.Set q₀ (some v)) h

theorem filterMap_length_of_some {α β : Type} (f : α → Option β) (l : List α)
    (h : ∀ a ∈ l, (f a).isSome = true) : (l.filterMap f).length = l.length := by
  induction l with
  | nil => rfl
  | cons a l ih =>
    obtain ⟨b, hb⟩ := Option.isSome_iff_exists.mp (h a (List.mem_cons_self _ _))
    rw [List.filterMap_cons, hb]
    simp [ih (fun x hx => h x (List.mem_cons_of_mem _ hx))]

theorem concrete_replicate (n : Nat) (k : K) : Concrete (List.replicate n (Element.key k)) := by
  intro e he
  rw [List.eq_of_mem_replicate he]
  simp [Wildcard]

theorem visited_registerAll_length (p : Path K) (v : V) (hp : Concrete p) :
    ((registerAll (patterns p) v (Map.empty : Map K V)).visited p).length = 2 ^ p.length := by
  rw [Map.visited_eq, Map.visitValues_eq_filterMap _ hp, ← patterns_length p]
  refine filterMap_length_of_some _ _ ?_
  intro q hq
  rw [Get_registerAll_of_mem _ v _ q hq]
  rfl

end FanOut

section FanOutClaims

/-- C16: the worst case fan-out of `Visit` is `2 ^ len(p)`. For every map,
query path, visitor and starting state, the visitor is invoked at most
`2 ^ len(p)` times. The bound is attained: on the empty map with a value set
at every pattern of `patterns p`, for a concrete path `p`, a visitor that
never fails is invoked exactly `2 ^ len(p)` times; so for every `n` there are
a map and a path of length `n` with exactly `2 ^ n` invocations. -/
theorem Visit_fan_out_bound :
    (∀ (K V E σ : Type) [DecidableEq K] (m : Map K V) (p : Path K)
        (fn : VisitorFunc V E σ) (s : σ),
        (m.Visit p (recording fn) (s, [])).1.2.length ≤ 2 ^ p.length ∧
          (m.visited p).length ≤ 2 ^ p.length) ∧
    (∀ (K V : Type) [DecidableEq K] (p : Path K) (v : V), Concrete p →
        ((registerAll (patterns p) v (Map.empty : Map K V)).visited p).length
          = 2 ^ p.length) ∧
    (∀ n : Nat, ∃ (m : Map Nat Nat) (p : Path Nat),
        p.length = n ∧ (m.visited p).length = 2 ^ n) := by
  refine ⟨?_, fun K V _ p v hp => visited_registerAll_length p v hp, ?_⟩
  · intro K V E σ _ m p fn s
    constructor
    · rw [Map.Visit_eq_runVisitor]
      have h₁ := runVisitor_recording_length fn (m.visitValues p) [] s
      have h₂ := Map.visitValues_length_le m p
      simp only [List.length_nil, Nat.zero_add] at h₁
      omega
    · rw [Map.visited_eq]
      exact Map.visitValues_length_le m p
  · intro n
    refine ⟨registerAll (patterns (List.replicate n (Element.key 0))) 1 Map.empty,
      List.replicate n (Element.key 0), List.length_replicate _ _, ?_⟩
    have := visited_registerAll_length (V := Nat) (List.replicate n (Element.key (0 : Nat))) 1
      (concrete_replicate n 0)
    rw [List.length_replicate] at this
    exact this

/-- The bound of C16 is attained on the path `(foo, bar)`: with the four
patterns registered, four values are visited. -/
theorem Visit_fan_out_bound_witness :
    Concrete (keys ["foo", "bar"]) ∧
    ((registerAll (patterns (keys ["foo", "bar"])) 7
        (Map.empty : Map String Nat)).visited (keys ["foo", "bar"])).length = 2 ^ 2 :=
  ⟨by simp [Concrete, keys, Wildcard],
    Visit_fan_out_bound.2.1 String Nat (keys ["foo", "bar"]) 7
      (by simp [Concrete, keys, Wildcard])⟩

end FanOutClaims

/-! ## What Delete leaves in place -/

section DeleteFrame

variable {K V : Type} [DecidableEq K]

theorem Map.Get_of_isEmpty (m : Map K V) (q : Path K) (h : m.isEmpty = true) :
    m.Get q = none := by
  simp only [Map.isEmpty, Bool.and_eq_true, Option.isNone_iff_eq_none, decide_eq_true_eq,
    List.length_eq_zero] at h
  cases q with
  | nil => rw [Map.Get_nil]; exact h.1.1
  | cons e q =>
    cases e with
    | wildcard => rw [Map.Get_wildcard_cons, h.1.2]
    | key k => rw [Map.Get_key_cons, h.2]; rfl

theorem Map.walk_of_isEmpty (m : Map K V) (e : Element K) (q : Path K)
    (h : m.isEmpty = true) : m.walk (e :: q) = none := by
  simp only [Map.isEmpty, Bool.and_eq_true, Option.isNone_iff_eq_none, decide_eq_true_eq,
    List.length_eq_zero] at h
  cases e with
  | wildcard => rw [Map.walk_wildcard_cons, h.1.2]
  | key k => rw [Map.walk_key_cons, h.2]; rfl

/-- The walk of `Delete p` leaves `Get q` as it was at every other path. -/
theorem Map.Get_deleteWalk_ne (m m' : Map K V) (p q : Path K) (b : Bool)
    (hr : m.deleteWalk p = some (m', b)) (hpq : p ≠ q) : m'.Get q = m.Get q := by
  induction p generalizing m m' b q with
  | nil =>
    rw [Map.deleteWalk_nil] at hr
    simp only [Option.some.injEq, Prod.mk.injEq] at hr
    rw [← hr.1]
    cases q with
    | nil => exact absurd rfl hpq
    | cons e q => cases e <;> simp [Map.Get_wildcard_cons, Map.Get_key_cons]
  | cons e p ih =>
    cases e with
    | wildcard =>
      rw [Map.deleteWalk_wildcard_cons] at hr
      cases hw : m.wildcard with
      | none => rw [hw] at hr; cases hr
      | some next =>
        rw [hw] at hr
        simp only at hr
        cases hd : next.deleteWalk p with
        | none => rw [hd] at hr; cases hr
        | some r =>
          obtain ⟨next', pr⟩ := r
          rw [hd] at hr
          simp only at hr
          have hm' : m'.val = m.val ∧ m'.children = m.children := by
            split at hr <;>
              · simp only [Option.some.injEq, Prod.mk.injEq] at hr
                rw [← hr.1]
                exact ⟨rfl, rfl⟩
          cases q with
          | nil => rw [Map.Get_nil, Map.Get_nil]; exact hm'.1
          | cons e' q =>
            cases e' with
            | key k' => rw [Map.Get_key_cons, Map.Get_key_cons, hm'.2]
            | wildcard =>
              have hpq' : p ≠ q := fun hc => hpq (by rw [hc])
              have ih' := ih next next' q pr hd hpq'
              rw [Map.Get_wildcard_cons, Map.Get_wildcard_cons, hw]
              split at hr
              · rename_i hcond
                simp only [Option.some.injEq, Prod.mk.injEq] at hr
                rw [← hr.1]
                simp only [Bool.and_eq_true] at hcond
                simp only [Map.wildcard_mk]
                rw [← ih', Map.Get_of_isEmpty next' q hcond.2]
              · simp only [Option.some.injEq, Prod.mk.injEq] at hr
                rw [← hr.1]
                exact ih'
    | key k =>
      rw [Map.deleteWalk_key_cons] at hr
      cases hc : childGet (Element.key k) m.children with
      | none => rw [hc] at hr; cases hr
      | some next =>
        rw [hc] at hr
        simp only at hr
        cases hd : next.deleteWalk p with
        | none => rw [hd] at hr; cases hr
        | some r =>
          obtain ⟨next', pr⟩ := r
          rw [hd] at hr
          simp only at hr
          have hm' : m'.val = m.val ∧ m'.wildcard = m.wildcard := by
            split at hr <;>
              · simp only [Option.some.injEq, Prod.mk.injEq] at hr
                rw [← hr.1]
                exact ⟨rfl, rfl⟩
          cases q with
          | nil => rw [Map.Get_nil, Map.Get_nil]; exact hm'.1
          | cons e' q =>
            cases e' with
            | wildcard => rw [Map.Get_wildcard_cons, Map.Get_wildcard_cons, hm'.2]
            | key k' =>
              rw [Map.Get_key_cons, Map.Get_key_cons]
              by_cases hk : k = k'
              · subst hk
                have hpq' : p ≠ q := fun hc => hpq (by rw [hc])
                have ih' := ih next next' q pr hd hpq'
                rw [hc]
                split at hr
                · rename_i hcond
                  simp only [Option.some.injEq, Prod.mk.injEq] at hr
                  rw [← hr.1]
                  simp only [Bool.and_eq_true] at hcond
                  simp only [Map.children_mk, childGet_childDelete_self]
                  rw [← ih', Map.Get_of_isEmpty next' q hcond.2]
                · simp only [Option.some.injEq, Prod.mk.injEq] at hr
                  rw [← hr.1]
                  simp only [Map.children_mk, childGet_childPut_self]
                  exact ih'
              · have hne : (Element.key k : Element K) ≠ Element.key k' := by
                  intro hc'; exact hk (Element.key.inj hc')
                split at hr
                · simp only [Option.some.injEq, Prod.mk.injEq] at hr
                  rw [← hr.1]
                  simp only [Map.children_mk, childGet_childDelete_ne hne]
                · simp only [Option.some.injEq, Prod.mk.injEq] at hr
                  rw [← hr.1]
                  simp only [Map.children_mk, childGet_childPut_ne hne]

theorem Map.Get_Delete_ne (m : Map K V) {p q : Path K} (hpq : p ≠ q) :
    (m.Delete p).1.Get q = m.Get q := by
  unfold Map.Delete
  cases hr : m.deleteWalk p with
  | none => rfl
  | some r =>
    obtain ⟨m', b⟩ := r
    exact Map.Get_deleteWalk_ne m m' p q b hr hpq

end DeleteFrame

section Detached

variable {K V : Type} [DecidableEq K]

theorem Map.walk_nil (m : Map K V) : m.walk [] = some m := by
  cases m; rfl

/-- A node that the walk of `Delete p` makes unreachable lies on the path `p`
and, once the deletion was done below it, was empty. -/
theorem Map.detached_of_deleteWalk (m m' : Map K V) (p : Path K) (b : Bool)
    (hr : m.deleteWalk p = some (m', b)) (e : Element K) (q : Path K) (n : Map K V)
    (hw : m.walk (e :: q) = some n) (hw' : m'.walk (e :: q) = none) :
    ∃ rest n', p = (e :: q) ++ rest ∧ n.deleteWalk rest = some (n', true) ∧
      n'.isEmpty = true := by
  induction p generalizing m m' b e q n with
  | nil =>
    rw [Map.deleteWalk_nil] at hr
    simp only [Option.some.injEq, Prod.mk.injEq] at hr
    rw [← hr.1] at hw'
    cases e with
    | wildcard =>
      rw [Map.walk_wildcard_cons] at hw hw'
      rw [Map.wildcard_mk, hw] at hw'
      cases hw'
    | key k =>
      rw [Map.walk_key_cons] at hw hw'
      rw [Map.children_mk, hw] at hw'
      cases hw'
  | cons e₀ p ih =>
    cases e₀ with
    | wildcard =>
      rw [Map.deleteWalk_wildcard_cons] at hr
      cases hmw : m.wildcard with
      | none => rw [hmw] at hr; cases hr
      | some next =>
        rw [hmw] at hr
        simp only at hr
        cases hd : next.deleteWalk p with
        | none => rw [hd] at hr; cases hr
        | some r =>
          obtain ⟨next', pr⟩ := r
          rw [hd] at hr
          simp only at hr
          cases e with
          | key k =>
            have hc : m'.children = m.children := by
              split at hr <;>
                · simp only [Option.some.injEq, Prod.mk.injEq] at hr
                  rw [← hr.1]
                  rfl
            rw [Map.walk_key_cons] at hw hw'
            rw [hc, hw] at hw'
            cases hw'
          | wildcard =>
            rw [Map.walk_wildcard_cons, hmw] at hw
            simp only at hw
            rw [Map.walk_wildcard_cons] at hw'
            split at hr
            · rename_i hcond
              simp only [Bool.and_eq_true] at hcond
              cases q with
              | nil =>
                rw [Map.walk_nil] at hw
                simp only [Option.some.injEq] at hw
                subst hw
                refine ⟨p, next', rfl, ?_, hcond.2⟩
                rw [hd, hcond.1]
              | cons e₁ q₁ =>
                obtain ⟨rest, n', hp, hn⟩ := ih next next' pr hd e₁ q₁ n hw
                  (Map.walk_of_isEmpty next' e₁ q₁ hcond.2)
                exact ⟨rest, n', by rw [hp]; rfl, hn⟩
            · simp only [Option.some.injEq, Prod.mk.injEq] at hr
              rw [← hr.1] at hw'
              simp only [Map.wildcard_mk] at hw'
              cases q with
              | nil =>
                rw [Map.walk_nil] at hw'
                cases hw'
              | cons e₁ q₁ =>
                obtain ⟨rest, n', hp, hn⟩ := ih next next' pr hd e₁ q₁ n hw hw'
                exact ⟨rest, n', by rw [hp]; rfl, hn⟩
    | key k =>
      rw [Map.deleteWalk_key_cons] at hr
      cases hmc : childGet (Element.key k) m.children with
      | none => rw [hmc] at hr; cases hr
      | some next =>
        rw [hmc] at hr
        simp only at hr
        cases hd : next.deleteWalk p with
        | none => rw [hd] at hr; cases hr
        | some r =>
          obtain ⟨next', pr⟩ := r
          rw [hd] at hr
          simp only at hr
          cases e with
          | wildcard =>
            have hc : m'.wildcard = m.wildcard := by
              split at hr <;>
                · simp only [Option.some.injEq, Prod.mk.injEq] at hr
                  rw [← hr.1]
                  rfl
            rw [Map.walk_wildcard_cons] at hw hw'
            rw [hc, hw] at hw'
            cases hw'
          | key k' =>
            rw [Map.walk_key_cons] at hw hw'
            by_cases hk : k = k'
            · subst hk
              rw [hmc] at hw
              simp only at hw
              split at hr
              · rename_i hcond
                simp only [Bool.and_eq_true] at hcond
                cases q with
                | nil =>
                  rw [Map.walk_nil] at hw
                  simp only [Option.some.injEq] at hw
                  subst hw
                  refine ⟨p, next', rfl, ?_, hcond.2⟩
                  rw [hd, hcond.1]
                | cons e₁ q₁ =>
                  obtain ⟨rest, n', hp, hn⟩ := ih next next' pr hd e₁ q₁ n hw
                    (Map.walk_of_isEmpty next' e₁ q₁ hcond.2)
                  exact ⟨rest, n', by rw [hp]; rfl, hn⟩
              · simp only [Option.some.injEq, Prod.mk.injEq] at hr
                rw [← hr.1] at hw'
                simp only [Map.children_mk, childGet_childPut_self] at hw'
                cases q with
                | nil =>
                  rw [Map.walk_nil] at hw'
                  cases hw'
                | cons e₁ q₁ =>
                  obtain ⟨rest, n', hp, hn⟩ := ih next next' pr hd e₁ q₁ n hw hw'
                  exact ⟨rest, n', by rw [hp]; rfl, hn⟩
            · have hne : (Element.key k : Element K) ≠ Element.key k' := by
                intro hc'; exact hk (Element.key.inj hc')
              have hc : childGet (Element.key k') m'.children =
                  childGet (Element.key k') m.children := by
                split at hr <;>
                  · simp only [Option.some.injEq, Prod.mk.injEq] at hr
                    rw [← hr.1]
                    simp only [Map.children_mk, childGet_childDelete_ne hne,
                      childGet_childPut_ne hne]
              rw [hc, hw] at hw'
              cases hw'

end Detached

section DeleteFrameClaims

/-- C18: `Delete` leaves every other entry intact. For every map and every
two paths `p` and `q` that differ as sequences of elements, `Get q` after
`Delete p` is `Get q` before it, whatever `Delete` returns. And pruning only
detaches empty nodes: a node that is reachable by the exact walk of a path `q`
before `Delete p` and not after it lies on the path `p`, and once the deletion
was done below it, it held no value and had no wildcard child and no
children. -/
theorem Delete_frames_other_paths :
    (∀ (K V : Type) [DecidableEq K] (m : Map K V) (p q : Path K),
        p ≠ q → (m.Delete p).1.Get q = m.Get q) ∧
    (∀ (K V : Type) [DecidableEq K] (m n : Map K V) (p q : Path K),
        q ≠ [] → m.walk q = some n → (m.Delete p).1.walk q = none →
        ∃ rest n', p = q ++ rest ∧ n.deleteWalk rest = some (n', true) ∧
          n'.val = none ∧ n'.wildcard = none ∧ n'.children = []) := by
  refine ⟨fun K V _ m p q h => Map.Get_Delete_ne m h, ?_⟩
  intro K V _ m n p q hq hw hw'
  cases q with
  | nil => exact absurd rfl hq
  | cons e q =>
    unfold Map.Delete at hw'
    cases hr : m.deleteWalk p with
    | none =>
      rw [hr] at hw'
      simp only at hw'
      rw [hw] at hw'
      cases hw'
    | some r =>
      obtain ⟨m', b⟩ := r
      rw [hr] at hw'
      simp only at hw'
      obtain ⟨rest, n', hp, hn, he⟩ := Map.detached_of_deleteWalk m m' p b hr e q n hw hw'
      simp only [Map.isEmpty, Bool.and_eq_true, Option.isNone_iff_eq_none, decide_eq_true_eq,
        List.length_eq_zero] at he
      exact ⟨rest, n', hp, hn, he.1.1, he.1.2, he.2⟩

/-- The frame property of `Delete` in the map holding `(foo, bar)` and
`(foo, baz)`: deleting the first leaves the second as it was. And in the map
holding only `(foo, bar)`, the node `(foo)` that `Delete (foo, bar)` detaches
was empty once `bar` was removed below it. -/
theorem Delete_frames_other_paths_witness :
    (([Element.key "foo", Element.key "bar"] : Path String) ≠
        [Element.key "foo", Element.key "baz"] ∧
      ((((Map.empty : Map String Nat).Set [Element.key "foo", Element.key "bar"] (some 1)).Set
        [Element.key "foo", Element.key "baz"] (some 2)).Delete
        [Element.key "foo", Element.key "bar"]).1.Get [Element.key "foo", Element.key "baz"]
      = some 2) ∧
    (∃ rest n', ([Element.key "foo", Element.key "bar"] : Path String) =
        [Element.key "foo"] ++ rest ∧
      (Map.mk none none [(Element.key "bar", Map.mk (some 1) none [])] :
        Map String Nat).deleteWalk rest = some (n', true) ∧
      n'.val = none ∧ n'.wildcard = none ∧ n'.children = []) :=
  ⟨⟨by decide, by
    rw [Delete_frames_other_paths.1 String Nat _ _ _ (by decide)]
    decide⟩,
   Delete_frames_other_paths.2 String Nat
    ((Map.empty : Map String Nat).Set [Element.key "foo", Element.key "bar"] (some 1))
    (Map.mk none none [(Element.key "bar", Map.mk (some 1) none [])])
    [Element.key "foo", Element.key "bar"] [Element.key "foo"]
    (by decide) (by rfl) (by rfl)⟩

end DeleteFrameClaims

/-! ## Delete undoes Set -/

section Undo

variable {K V : Type} [DecidableEq K]

theorem childDelete_of_childGet_none (e : Element K) (cs : List (Element K × Map K V))
    (h : childGet e cs = none) : childDelete e cs = cs := by
  induction cs with
  | nil => rfl
  | cons hd tl ih =>
    obtain ⟨k, c⟩ := hd
    by_cases hk : k = e
    · simp [childGet, hk] at h
    · simp only [childGet, hk, if_false] at h
      have : childDelete e ((k, c) :: tl) = (k, c) :: childDelete e tl := by
        simp [childDelete, hk]
      rw [this, ih h]

theorem childDelete_childPut_of_none (e : Element K) (c : Map K V)
    (cs : List (Element K × Map K V)) (h : childGet e cs = none) :
    childDelete e (childPut e c cs) = cs := by
  induction cs with
  | nil => simp [childPut, childDelete]
  | cons hd tl ih =>
    obtain ⟨k, c'⟩ := hd
    by_cases hk : k = e
    · simp [childGet, hk] at h
    · simp only [childGet, hk, if_false] at h
      have : childDelete e ((k, c') :: childPut e c tl) = (k, c') :: childDelete e (childPut e c tl) := by
        simp [childDelete, hk]
      simp only [childPut, hk, if_false]
      rw [this, ih h]

theorem childPut_childPut_of_some (e : Element K) (c c' : Map K V)
    (cs : List (Element K × Map K V)) (h : childGet e cs = some c) :
    childPut e c (childPut e c' cs) = cs := by
  induction cs with
  | nil => cases h
  | cons hd tl ih =>
    obtain ⟨k, c₀⟩ := hd
    by_cases hk : k = e
    · simp only [childGet, hk, if_true, Option.some.injEq] at h
      subst h
      simp [childPut, hk]
    · simp only [childGet, hk, if_false] at h
      simp [childPut, hk, ih h]

/-- On a map without empty node below the root, the walk of `Delete p` right
after `Set p v` at a path without value gives the map back. -/
theorem Map.deleteWalk_Set_undo (m : Map K V) (p : Path K) (v : Option V)
    (hg : m.Get p = none) (hd : m.noDangling = true) :
    ∃ b, (m.Set p v).deleteWalk p = some (m, b) := by
  induction p generalizing m with
  | nil =>
    rw [Map.Get_nil] at hg
    refine ⟨true, ?_⟩
    rw [Map.deleteWalk_nil]
    simp only [Map.Set, Map.wildcard_mk, Map.children_mk]
    rw [← hg, Map.eta]
  | cons e p ih =>
    rw [Map.noDangling_iff] at hd
    cases e with
    | wildcard =>
      rw [Map.Get_wildcard_cons] at hg
      rw [Map.Set_wildcard_cons, Map.deleteWalk_wildcard_cons]
      simp only [Map.wildcard_mk, Map.val_mk, Map.children_mk]
      cases hw : m.wildcard with
      | none =>
        simp only [Option.getD_none, Map.deleteWalk_Set_empty]
        refine ⟨true, ?_⟩
        have : (Map.empty : Map K V).isEmpty = true := rfl
        simp only [this, Bool.and_self, if_true]
        rw [← hw, Map.eta]
      | some w =>
        rw [hw] at hg
        simp only at hg
        have hn := hd.1
        rw [hw, noDanglingWildcard_some] at hn
        simp only [Bool.and_eq_true, Bool.not_eq_true'] at hn
        obtain ⟨b, hb⟩ := ih w hg hn.2
        simp only [Option.getD_some, hb, hn.1, Bool.and_false]
        refine ⟨false, ?_⟩
        simp only [Bool.false_eq_true, if_false]
        rw [← hw, Map.eta]
    | key k =>
      rw [Map.Get_key_cons] at hg
      rw [Map.Set_key_cons, Map.deleteWalk_key_cons]
      simp only [Map.wildcard_mk, Map.val_mk, Map.children_mk, childGet_childPut_self]
      cases hc : childGet (Element.key k) m.children with
      | none =>
        simp only [Option.getD_none, Map.deleteWalk_Set_empty]
        refine ⟨true, ?_⟩
        have : (Map.empty : Map K V).isEmpty = true := rfl
        simp only [this, Bool.and_self, if_true]
        rw [childDelete_childPut_of_none _ _ _ hc, Map.eta]
      | some c =>
        rw [hc] at hg
        simp only at hg
        have hn := noDanglingChildren_childGet _ c _ hd.2 hc
        obtain ⟨b, hb⟩ := ih c hg hn.2
        simp only [Option.getD_some, hb, hn.1, Bool.and_false]
        refine ⟨false, ?_⟩
        simp only [Bool.false_eq_true, if_false]
        rw [childPut_childPut_of_some _ _ _ _ hc, Map.eta]

theorem Map.run_noDangling (ops : List (Op K V)) : (Map.run ops).noDangling = true :=
  foldl_apply_noDangling ops Map.empty Map.noDangling_empty

end Undo

section UndoClaims

/-- C19: `Delete` undoes `Set`. On a map obtained from the empty map by `Set`
calls with values that are not `nil` and by `Delete` calls, at a path `p`
where `Get p` is absent, `Set p v` followed by `Delete p` gives the map back,
node for node: every node has the value, the wildcard child and the children
it had, and every node `Set` created is pruned again. `Delete` returns
true. -/
theorem Delete_undoes_Set {K V : Type} [DecidableEq K]
    (ops : List (Op K V)) (p : Path K) (v : Option V)
    (h : (Map.run ops).Get p = none) :
    ((Map.run ops).Set p v).Delete p = (Map.run ops, true) := by
  obtain ⟨b, hb⟩ := Map.deleteWalk_Set_undo (Map.run ops) p v h (Map.run_noDangling ops)
  exact Map.Delete_fst_of_some _ _ p b hb

/-- The undoing of C19 on the map built by `Set (foo, bar) 1`, at the path
`(foo, baz)`. -/
theorem Delete_undoes_Set_witness :
    (Map.run [Op.set [Element.key "foo", Element.key "bar"] 1] : Map String Nat).Get
        [Element.key "foo", Element.key "baz"] = none ∧
    ((Map.run [Op.set [Element.key "foo", Element.key "bar"] 1] : Map String Nat).Set
        [Element.key "foo", Element.key "baz"] (some 2)).Delete
        [Element.key "foo", Element.key "baz"] =
      (Map.run [Op.set [Element.key "foo", Element.key "bar"] 1], true) :=
  ⟨by decide, Delete_undoes_Set _ _ _ (by decide)⟩

/-- Without the restriction to maps built with values that are not `nil` the
undoing fails: after `Set (foo) nil` the node `(foo)` is empty, and `Set` and
`Delete` at `(foo, bar)` prune it too. -/
theorem Delete_prunes_older_empty_node :
    ((((Map.empty : Map String Nat).Set [Element.key "foo"] none).Set
        [Element.key "foo", Element.key "bar"] (some 1)).Delete
        [Element.key "foo", Element.key "bar"]).1.children = [] ∧
    ((Map.empty : Map String Nat).Set [Element.key "foo"] none).children ≠ [] := by
  constructor
  · rfl
  · simp [Map.Set, childPut]

end UndoClaims

/-! ## Set on two paths -/

section Slots

variable {K V : Type} [DecidableEq K]

@[simp] theorem slotOf_wildcard : slotOf (Element.wildcard : Element K) = Slot.wildcard := rfl

@[simp] theorem slotOf_key (k : K) :
    slotOf (Element.key k) = Slot.child (Element.key k) := rfl

theorem slotOf_injective : Function.Injective (slotOf : Element K → Slot K) := by
  intro a b h
  cases a <;> cases b <;> simp at h ⊢
  exact h

theorem Map.valueAt_nil (m : Map K V) : m.valueAt [] = m.val := by
  cases m; rfl

theorem Map.valueAt_cons (m : Map K V) (s : Slot K) (ss : List (Slot K)) :
    m.valueAt (s :: ss) =
      match m.next s with
      | none => none
      | some n => n.valueAt ss := by
  cases m; rfl

theorem Map.valueAt_empty (ss : List (Slot K)) : (Map.empty : Map K V).valueAt ss = none := by
  cases ss with
  | nil => rfl
  | cons s ss => cases s <;> rfl

/-- The value `Get` returns is the value at the slots of the path. -/
theorem Map.Get_eq_valueAt (m : Map K V) (p : Path K) :
    m.Get p = m.valueAt (p.map slotOf) := by
  induction p generalizing m with
  | nil => rw [Map.Get_nil, List.map_nil, Map.valueAt_nil]
  | cons e p ih =>
    cases e with
    | wildcard =>
      rw [Map.Get_wildcard_cons, List.map_cons, slotOf_wildcard, Map.valueAt_cons]
      simp only [Map.next]
      cases m.wildcard with
      | none => rfl
      | some w => exact ih w
    | key k =>
      rw [Map.Get_key_cons, List.map_cons, slotOf_key, Map.valueAt_cons]
      simp only [Map.next]
      cases childGet (Element.key k) m.children with
      | none => rfl
      | some next => exact ih next

theorem filterMap_valueAt_cons (m : Map K V) (s : Slot K) (l : List (List (Slot K))) :
    (l.map (fun ss => s :: ss)).filterMap m.valueAt =
      match m.next s with
      | none => []
      | some n => l.filterMap n.valueAt := by
  rw [List.filterMap_map]
  cases h : m.next s with
  | none =>
    induction l with
    | nil => rfl
    | cons a l ih => simp [Map.valueAt_cons, h]
  | some n =>
    simp only
    congr 1
    funext ss
    simp [Map.valueAt_cons, h]

/-- The values `Visit` reaches are the values at the slots of `visitSlots`. -/
theorem Map.visitValues_eq_filterMap_slots (m : Map K V) (p : Path K) :
    m.visitValues p = (visitSlots p).filterMap m.valueAt := by
  induction p generalizing m with
  | nil => cases h : m.val <;> simp [Map.visitValues, visitSlots, Map.valueAt_nil, h]
  | cons e p ih =>
    simp only [Map.visitValues, visitSlots, List.filterMap_append, filterMap_valueAt_cons,
      Map.next]
    congr 1
    · cases m.wildcard with
      | none => rfl
      | some w => exact ih w
    · cases childGet e m.children with
      | none => rfl
      | some next => exact ih next

/-- The values `VisitPrefixes` reaches are the values at the slots of
`prefixSlots`. -/
theorem Map.prefixValues_eq_filterMap_slots (m : Map K V) (p : Path K) :
    m.prefixValues p = (prefixSlots p).filterMap m.valueAt := by
  induction p generalizing m with
  | nil => cases h : m.val <;> simp [Map.prefixValues, prefixSlots, Map.valueAt_nil, h]
  | cons e p ih =>
    have h0 : ∀ l : List (List (Slot K)), (([] : List (Slot K)) :: l).filterMap m.valueAt =
        m.val.toList ++ l.filterMap m.valueAt := by
      intro l
      cases hv : m.val <;> simp [List.filterMap_cons, Map.valueAt_nil, hv]
    simp only [Map.prefixValues, prefixSlots, h0, List.filterMap_append, filterMap_valueAt_cons,
      Map.next]
    congr 2
    · cases m.wildcard with
      | none => rfl
      | some w => exact ih w
    · cases childGet e m.children with
      | none => rfl
      | some next => exact ih next

/-- `Set p v` puts `v` at the slots of `p` and leaves the value at every
other sequence of slots as it was. -/
theorem Map.valueAt_Set (m : Map K V) (p : Path K) (v : Option V) (ss : List (Slot K)) :
    (m.Set p v).valueAt ss = if ss = p.map slotOf then v else m.valueAt ss := by
  induction p generalizing m ss with
  | nil =>
    cases ss with
    | nil => simp [Map.Set, Map.valueAt_nil]
    | cons s ss => cases s <;> simp [Map.Set, Map.valueAt_cons, Map.next]
  | cons e p ih =>
    cases ss with
    | nil => cases e <;> simp [Map.Set_wildcard_cons, Map.Set_key_cons, Map.valueAt_nil]
    | cons s ss =>
      cases e with
      | wildcard =>
        rw [Map.Set_wildcard_cons, Map.valueAt_cons, Map.valueAt_cons]
        cases s with
        | wildcard =>
          simp only [Map.next, Map.wildcard_mk, ih, List.map_cons, slotOf_wildcard,
            List.cons.injEq, true_and]
          cases m.wildcard with
          | none => simp [Map.valueAt_empty]
          | some w => simp
        | child e' => simp [Map.next]
      | key k =>
        rw [Map.Set_key_cons, Map.valueAt_cons, Map.valueAt_cons]
        cases s with
        | wildcard => simp [Map.next]
        | child e' =>
          by_cases he : Element.key k = e'
          · subst he
            simp only [Map.next, Map.children_mk, childGet_childPut_self, ih, List.map_cons,
              slotOf_key, List.cons.injEq, true_and]
            cases childGet (Element.key k) m.children with
            | none => simp [Map.valueAt_empty]
            | some c => simp
          · have hne : Slot.child e' ≠ Slot.child (Element.key k) := by
              intro hc
              exact he (Slot.child.inj hc).symm
            simp [Map.next, childGet_childPut_ne he, hne]

/-- Two `Set` calls at different paths give, in either order, maps with the
same value at every sequence of slots. -/
theorem Map.valueAt_Set_comm (m : Map K V) {p q : Path K} (h : p ≠ q) (v w : Option V)
    (ss : List (Slot K)) :
    ((m.Set p v).Set q w).valueAt ss = ((m.Set q w).Set p v).valueAt ss := by
  simp only [Map.valueAt_Set]
  have hne : p.map slotOf ≠ q.map slotOf := fun hc => h (List.map_injective_iff.mpr
    slotOf_injective hc)
  by_cases h₁ : ss = q.map slotOf
  · have h₂ : ss ≠ p.map slotOf := fun hc => hne (hc.symm.trans h₁)
    simp [h₁, h₂, Ne.symm hne]
  · simp [h₁]

theorem filterMap_congr_fun {α β : Type} (f g : α → Option β) (l : List α)
    (h : ∀ a, f a = g a) : l.filterMap f = l.filterMap g := by
  have : f = g := funext h
  rw [this]

end Slots

section CommuteClaims

/-- C20: `Set` commutes on distinct paths. For every map, two paths `p` and
`q` that differ as sequences of elements and all values, `nil` included, the
map after `Set p v; Set q w` and the map after `Set q w; Set p v` return the
same `Get` at every path, and `Visit` and `VisitPrefixes` behave the same on
them for every query path, visitor and starting state; in particular they pass
the same sequence of values to a visitor that never fails. -/
theorem Set_commutes_on_distinct_paths {K V : Type} [DecidableEq K]
    (m : Map K V) (p q : Path K) (v w : Option V) (h : p ≠ q) :
    (∀ r : Path K, ((m.Set p v).Set q w).Get r = ((m.Set q w).Set p v).Get r) ∧
    (∀ r : Path K, ((m.Set p v).Set q w).visited r = ((m.Set q w).Set p v).visited r ∧
      ((m.Set p v).Set q w).visitedPrefixes r = ((m.Set q w).Set p v).visitedPrefixes r) ∧
    (∀ (E σ : Type) (r : Path K) (fn : VisitorFunc V E σ) (s : σ),
      ((m.Set p v).Set q w).Visit r fn s = ((m.Set q w).Set p v).Visit r fn s ∧
      ((m.Set p v).Set q w).VisitPrefixes r fn s =
        ((m.Set q w).Set p v).VisitPrefixes r fn s) := by
  have hv : ∀ r : Path K,
      ((m.Set p v).Set q w).visitValues r = ((m.Set q w).Set p v).visitValues r := by
    intro r
    rw [Map.visitValues_eq_filterMap_slots, Map.visitValues_eq_filterMap_slots]
    exact filterMap_congr_fun _ _ _ (Map.valueAt_Set_comm m h v w)
  have hp : ∀ r : Path K,
      ((m.Set p v).Set q w).prefixValues r = ((m.Set q w).Set p v).prefixValues r := by
    intro r
    rw [Map.prefixValues_eq_filterMap_slots, Map.prefixValues_eq_filterMap_slots]
    exact filterMap_congr_fun _ _ _ (Map.valueAt_Set_comm m h v w)
  refine ⟨?_, ?_, ?_⟩
  · intro r
    rw [Map.Get_eq_valueAt, Map.Get_eq_valueAt]
    exact Map.valueAt_Set_comm m h v w _
  · intro r
    rw [Map.visited_eq, Map.visited_eq, Map.visitedPrefixes_eq, Map.visitedPrefixes_eq]
    exact ⟨hv r, hp r⟩
  · intro E σ r fn s
    rw [Map.Visit_eq_runVisitor, Map.Visit_eq_runVisitor, Map.VisitPrefixes_eq_runVisitor,
      Map.VisitPrefixes_eq_runVisitor, hv r, hp r]
    exact ⟨rfl, rfl⟩

/-- The commutation of C20 on the empty map with the paths `(foo)` and `(*)`:
both orders of registration visit 2 then 1 at the query `(foo)`. -/
theorem Set_commutes_on_distinct_paths_witness :
    ([Element.key "foo"] : Path String) ≠ [Wildcard] ∧
    (((Map.empty : Map String Nat).Set [Element.key "foo"] (some 1)).Set
        [Wildcard] (some 2)).visited (keys ["foo"]) = [2, 1] ∧
    (((Map.empty : Map String Nat).Set [Wildcard] (some 2)).Set
        [Element.key "foo"] (some 1)).visited (keys ["foo"]) = [2, 1] := by
  have hne : ([Element.key "foo"] : Path String) ≠ [Wildcard] := by decide
  refine ⟨hne, by decide, ?_⟩
  rw [← ((Set_commutes_on_distinct_paths (Map.empty : Map String Nat) [Element.key "foo"]
    [Wildcard] (some 1) (some 2) hne).2.1 (keys ["foo"])).1]
  decide

end CommuteClaims

/-! ## String -/

section Rendering

variable {K V : Type} [DecidableEq K]

theorem childText_writeChildren (fmtVal : V → String) (keyString : K → String)
    (quote : String → String) (key : Element K) (cs : List (Element K × Map K V))
    (indent : String) :
    childText key (writeChildren fmtVal keyString quote cs indent) =
      match childGet key cs with
      | none => ""
      | some c => c.write fmtVal keyString quote (indent ++ "  ") := by
  induction cs with
  | nil => simp [writeChildren, childText, childGet]
  | cons hd tl ih =>
    obtain ⟨k, c⟩ := hd
    by_cases hk : k = key
    · simp [writeChildren, childText, childGet, hk]
    · simp [writeChildren, childText, childGet, hk, ih]

/-- What `write` appends for a node: the value line, the wildcard child under
the label `*`, then the children in the order of `sortKeys`, each under its
label. -/
theorem write_mk_eq (fmtVal : V → String) (keyString : K → String) (quote : String → String)
    (val : Option V) (w : Option (Map K V)) (cs : List (Element K × Map K V))
    (indent : String) :
    (Map.mk val w cs).write fmtVal keyString quote indent =
      (match val with
       | none => ""
       | some v => indent ++ "Val: " ++ fmtVal v ++ "\n") ++
      (match w with
       | none => ""
       | some wm =>
         indent ++ "Child " ++ quote "*" ++ ":\n" ++
           wm.write fmtVal keyString quote (indent ++ "  ")) ++
      String.join ((sortKeys keyString (cs.map Prod.fst)).map fun key =>
        indent ++ "Child " ++ quote (key.String keyString) ++ ":\n" ++
          (match childGet key cs with
           | none => ""
           | some c => c.write fmtVal keyString quote (indent ++ "  "))) := by
  have h : (Map.mk val w cs).write fmtVal keyString quote indent =
      (match val with
       | none => ""
       | some v => indent ++ "Val: " ++ fmtVal v ++ "\n") ++
      writeWildcard fmtVal keyString quote w indent ++
      String.join ((sortKeys keyString (cs.map Prod.fst)).map fun key =>
        indent ++ "Child " ++ quote (key.String keyString) ++ ":\n" ++
          childText key (writeChildren fmtVal keyString quote cs indent)) := by
    simp [Map.write]
  rw [h]
  congr 1
  · congr 1
    cases w with
    | none => simp [writeWildcard]
    | some wm => simp [writeWildcard, Wildcard, Element.String]
  · congr 2
    funext key
    rw [childText_writeChildren]

theorem mem_keys_iff (e : Element K) (cs : List (Element K × Map K V)) :
    e ∈ cs.map Prod.fst ↔ (childGet e cs).isSome = true := by
  induction cs with
  | nil => simp [childGet]
  | cons hd tl ih =>
    obtain ⟨k, c⟩ := hd
    by_cases hk : k = e
    · simp [childGet, hk]
    · have hk' : e ≠ k := fun h => hk h.symm
      simp [childGet, hk, hk', ih]

/-- The keys come out of `sortKeys` in ascending order of their string
rendering. -/
theorem sortKeys_sorted (keyString : K → String) (keys : List (Element K)) :
    (sortKeys keyString keys).Pairwise
      (fun a b => a.String keyString ≤ b.String keyString) := by
  haveI : IsTotal (Element K)
      (fun a b => ¬ (b.String keyString < a.String keyString)) :=
    ⟨fun a b => by
      rcases le_total (a.String keyString) (b.String keyString) with h | h
      · exact Or.inl (not_lt.mpr h)
      · exact Or.inr (not_lt.mpr h)⟩
  haveI : IsTrans (Element K)
      (fun a b => ¬ (b.String keyString < a.String keyString)) :=
    ⟨fun a b c hab hbc => not_lt.mpr (le_trans (not_lt.mp hab) (not_lt.mp hbc))⟩
  have h := List.sorted_insertionSort
    (fun a b : Element K => ¬ (b.String keyString < a.String keyString)) keys
  exact List.Pairwise.imp (fun hab => not_lt.mp hab) h

theorem sortKeys_perm (keyString : K → String) (keys : List (Element K)) :
    (sortKeys keyString keys).Perm keys :=
  List.perm_insertionSort _ keys

/-- Lists of keys with the same members and distinct renderings are sorted
into the same list. -/
theorem sortKeys_eq_of_perm (keyString : K → String) {keys₁ keys₂ : List (Element K)}
    (hp : keys₁.Perm keys₂) (hn : (keys₁.map (Element.String keyString)).Nodup) :
    sortKeys keyString keys₁ = sortKeys keyString keys₂ := by
  refine List.Perm.eq_of_sorted ?_ (sortKeys_sorted keyString keys₁)
    (sortKeys_sorted keyString keys₂)
    ((sortKeys_perm keyString keys₁).trans (hp.trans (sortKeys_perm keyString keys₂).symm))
  intro a b ha hb hab hba
  have ha' : a ∈ keys₁ := (sortKeys_perm keyString keys₁).subset ha
  have hb' : b ∈ keys₁ := hp.symm.subset ((sortKeys_perm keyString keys₂).subset hb)
  exact List.inj_on_of_nodup_map hn ha' hb' (le_antisymm hab hba)

end Rendering

section Content

variable {K V : Type} [DecidableEq K]

theorem childGet_sizeOf (e : Element K) (c : Map K V) (cs : List (Element K × Map K V))
    (h : childGet e cs = some c) : sizeOf c < sizeOf cs := by
  induction cs with
  | nil => cases h
  | cons hd tl ih =>
    obtain ⟨k, c'⟩ := hd
    by_cases hk : k = e
    · simp only [childGet, hk, if_true, Option.some.injEq] at h
      subst h
      simp only [List.cons.sizeOf_spec, Prod.mk.sizeOf_spec]
      omega
    · simp only [childGet, hk, if_false] at h
      have := ih h
      simp only [List.cons.sizeOf_spec]
      omega

theorem Map.sizeOf_next (m n : Map K V) (s : Slot K) (h : m.next s = some n) :
    sizeOf n < sizeOf m := by
  cases m with
  | mk val w cs =>
    cases s with
    | wildcard =>
      simp only [Map.next, Map.wildcard_mk] at h
      subst h
      simp only [Map.mk.sizeOf_spec, Option.some.sizeOf_spec]
      omega
    | child e =>
      simp only [Map.next, Map.children_mk] at h
      have := childGet_sizeOf e n cs h
      simp only [Map.mk.sizeOf_spec]
      omega

theorem Map.nodeAt_nil (m : Map K V) : m.nodeAt [] = some m := by
  cases m; rfl

theorem Map.nodeAt_cons (m : Map K V) (s : Slot K) (ss : List (Slot K)) :
    m.nodeAt (s :: ss) =
      match m.next s with
      | none => none
      | some n => n.nodeAt ss := by
  cases m; rfl

theorem Map.SameContent.val_eq {m₁ m₂ : Map K V} (h : m₁.SameContent m₂) :
    m₁.val = m₂.val := by
  have := h []
  simpa [Map.nodeAt_nil] using this

/-- Maps with the same content have a child in the same slots, and the
children have the same content. -/
theorem Map.SameContent.next {m₁ m₂ : Map K V} (h : m₁.SameContent m₂) (s : Slot K) :
    (m₁.next s = none ∧ m₂.next s = none) ∨
      ∃ n₁ n₂, m₁.next s = some n₁ ∧ m₂.next s = some n₂ ∧ n₁.SameContent n₂ := by
  have h₀ := h [s]
  simp only [Map.nodeAt_cons] at h₀
  cases h₁ : m₁.next s with
  | none =>
    cases h₂ : m₂.next s with
    | none => exact Or.inl ⟨rfl, rfl⟩
    | some n₂ => simp [h₁, h₂, Map.nodeAt_nil] at h₀
  | some n₁ =>
    cases h₂ : m₂.next s with
    | none => simp [h₁, h₂, Map.nodeAt_nil] at h₀
    | some n₂ =>
      refine Or.inr ⟨n₁, n₂, rfl, rfl, ?_⟩
      intro ss
      have := h (s :: ss)
      simpa [Map.nodeAt_cons, h₁, h₂] using this

theorem distinctKeyStrings_iff (keyString : K → String) (m : Map K V) :
    m.distinctKeyStrings keyString = true ↔
      (m.children.map fun kc => kc.1.String keyString).Nodup ∧
      distinctKeyStringsWildcard keyString m.wildcard = true ∧
      distinctKeyStringsChildren keyString m.children = true := by
  cases m
  simp [Map.distinctKeyStrings, and_assoc]

theorem distinctKeyStringsChildren_childGet (keyString : K → String) (e : Element K)
    (c : Map K V) (cs : List (Element K × Map K V))
    (hcs : distinctKeyStringsChildren keyString cs = true) (hg : childGet e cs = some c) :
    c.distinctKeyStrings keyString = true := by
  induction cs with
  | nil => cases hg
  | cons hd tl ih =>
    obtain ⟨k, c'⟩ := hd
    simp only [distinctKeyStringsChildren, Bool.and_eq_true] at hcs
    by_cases hk : k = e
    · simp only [childGet, hk, if_true, Option.some.injEq] at hg
      subst hg
      exact hcs.1
    · simp only [childGet, hk, if_false] at hg
      exact ih hcs.2 hg

theorem distinctKeyStrings_next (keyString : K → String) (m n : Map K V) (s : Slot K)
    (hm : m.distinctKeyStrings keyString = true) (h : m.next s = some n) :
    n.distinctKeyStrings keyString = true := by
  rw [distinctKeyStrings_iff] at hm
  cases s with
  | wildcard =>
    simp only [Map.next] at h
    have := hm.2.1
    rw [h] at this
    simpa [distinctKeyStringsWildcard] using this
  | child e =>
    simp only [Map.next] at h
    exact distinctKeyStringsChildren_childGet keyString e n _ hm.2.2 h

/-- Maps with the same content and distinct renderings of the keys have the
same keys, up to their order in `children`. -/
theorem sameContent_keys_perm {m₁ m₂ : Map K V} (h : m₁.SameContent m₂)
    (keyString : K → String) (h₁ : m₁.distinctKeyStrings keyString = true)
    (h₂ : m₂.distinctKeyStrings keyString = true) :
    (m₁.children.map Prod.fst).Perm (m₂.children.map Prod.fst) := by
  rw [distinctKeyStrings_iff] at h₁ h₂
  have n₁ : (m₁.children.map Prod.fst).Nodup := by
    refine List.Nodup.of_map (Element.String keyString) ?_
    simpa [List.map_map, Function.comp_def] using h₁.1
  have n₂ : (m₂.children.map Prod.fst).Nodup := by
    refine List.Nodup.of_map (Element.String keyString) ?_
    simpa [List.map_map, Function.comp_def] using h₂.1
  rw [List.perm_ext_iff_of_nodup n₁ n₂]
  intro e
  rw [mem_keys_iff, mem_keys_iff]
  rcases h.next (Slot.child e) with ⟨ha, hb⟩ | ⟨a, b, ha, hb, _⟩
  · simp only [Map.next] at ha hb
    simp [ha, hb]
  · simp only [Map.next] at ha hb
    simp [ha, hb]

end Content

section ContentRendering

variable {K V : Type} [DecidableEq K]

/-- Maps with the same content and distinct renderings of sibling keys are
written to the same text. -/
theorem write_eq_of_sameContent (fmtVal : V → String) (keyString : K → String)
    (quote : String → String) (n : Nat) :
    ∀ (m₁ m₂ : Map K V) (indent : String), sizeOf m₁ ≤ n → m₁.SameContent m₂ →
      m₁.distinctKeyStrings keyString = true → m₂.distinctKeyStrings keyString = true →
      m₁.write fmtVal keyString quote indent = m₂.write fmtVal keyString quote indent := by
  induction n with
  | zero =>
    intro m₁ m₂ indent hs
    cases m₁ with
    | mk v w cs =>
      simp only [Map.mk.sizeOf_spec] at hs
      omega
  | succ n ih =>
    intro m₁ m₂ indent hs h h₁ h₂
    have hperm := sameContent_keys_perm h keyString h₁ h₂
    have hnodup : ((m₁.children.map Prod.fst).map (Element.String keyString)).Nodup := by
      have := ((distinctKeyStrings_iff keyString m₁).mp h₁).1
      simpa [List.map_map, Function.comp_def] using this
    have hv := h.val_eq
    have hnext : ∀ s : Slot K,
        (match m₁.next s with
          | none => ""
          | some c => c.write fmtVal keyString quote (indent ++ "  ")) =
        (match m₂.next s with
          | none => ""
          | some c => c.write fmtVal keyString quote (indent ++ "  ")) := by
      intro s
      rcases h.next s with ⟨ha, hb⟩ | ⟨a, b, ha, hb, hab⟩
      · rw [ha, hb]
      · rw [ha, hb]
        have hlt := Map.sizeOf_next m₁ a s ha
        exact ih a b _ (by omega) hab (distinctKeyStrings_next keyString m₁ a s h₁ ha)
          (distinctKeyStrings_next keyString m₂ b s h₂ hb)
    have hw : ∀ label : String,
        (match m₁.wildcard with
          | none => ""
          | some wm => label ++ wm.write fmtVal keyString quote (indent ++ "  ")) =
        (match m₂.wildcard with
          | none => ""
          | some wm => label ++ wm.write fmtVal keyString quote (indent ++ "  ")) := by
      intro label
      have := hnext Slot.wildcard
      simp only [Map.next] at this
      cases hw₁ : m₁.wildcard with
      | none =>
        cases hw₂ : m₂.wildcard with
        | none => rfl
        | some b =>
          rcases h.next Slot.wildcard with ⟨_, hb⟩ | ⟨_, _, ha, _, _⟩
          · simp [Map.next, hw₂] at hb
          · simp [Map.next, hw₁] at ha
      | some a =>
        cases hw₂ : m₂.wildcard with
        | none =>
          rcases h.next Slot.wildcard with ⟨ha, _⟩ | ⟨_, _, _, hb, _⟩
          · simp [Map.next, hw₁] at ha
          · simp [Map.next, hw₂] at hb
        | some b =>
          rw [hw₁, hw₂] at this
          simp only at this ⊢
          rw [this]
    cases m₁ with
    | mk v₁ w₁ cs₁ =>
      cases m₂ with
      | mk v₂ w₂ cs₂ =>
        simp only [Map.val_mk, Map.wildcard_mk, Map.children_mk] at hperm hnodup hv hw
        rw [write_mk_eq, write_mk_eq, hv, sortKeys_eq_of_perm keyString hperm hnodup,
          hw (indent ++ "Child " ++ quote "*" ++ ":\n")]
        congr 2
        congr 1
        funext key
        have := hnext (Slot.child key)
        simp only [Map.next, Map.children_mk] at this
        rw [this]

end ContentRendering

section ContentAfterSet

variable {K V : Type} [DecidableEq K]

theorem Map.nodeAt_empty_cons (s : Slot K) (ss : List (Slot K)) :
    (Map.empty : Map K V).nodeAt (s :: ss) = none := by
  cases s <;> rfl

theorem Map.nodeAt_val_empty (ss : List (Slot K)) (P : List (Slot K)) (h : ¬ ss <+: P) :
    ((Map.empty : Map K V).nodeAt ss).map Map.val = none := by
  cases ss with
  | nil => exact absurd List.nil_prefix h
  | cons s ss => rw [Map.nodeAt_empty_cons]; rfl

/-- The nodes of the map after `Set p v`, with their values: the node at the
slots of `p` holds `v`, the nodes above it exist and keep the value they had,
if any, and elsewhere the nodes are those of the map before. -/
theorem Map.nodeAt_val_Set (m : Map K V) (p : Path K) (v : Option V) (ss : List (Slot K)) :
    ((m.Set p v).nodeAt ss).map Map.val =
      if ss = p.map slotOf then some v
      else if ss <+: p.map slotOf then some (m.valueAt ss)
      else (m.nodeAt ss).map Map.val := by
  induction p generalizing m ss with
  | nil =>
    cases ss with
    | nil => simp [Map.Set, Map.nodeAt_nil]
    | cons s ss => cases s <;> simp [Map.Set, Map.nodeAt_cons, Map.next]
  | cons e p ih =>
    cases ss with
    | nil =>
      cases e <;>
        simp [Map.Set_wildcard_cons, Map.Set_key_cons, Map.nodeAt_nil, Map.valueAt_nil]
    | cons s ss =>
      cases e with
      | wildcard =>
        rw [Map.Set_wildcard_cons, Map.nodeAt_cons, Map.nodeAt_cons, Map.valueAt_cons]
        cases s with
        | wildcard =>
          simp only [Map.next, Map.wildcard_mk, ih, List.map_cons, slotOf_wildcard,
            List.cons.injEq, true_and, List.cons_prefix_cons]
          cases m.wildcard with
          | none =>
            simp only [Option.getD_none, Map.valueAt_empty]
            split_ifs with h₁ h₂
            · rfl
            · rfl
            · exact Map.nodeAt_val_empty ss _ h₂
          | some w => simp
        | child e' => simp [Map.next]
      | key k =>
        rw [Map.Set_key_cons, Map.nodeAt_cons, Map.nodeAt_cons, Map.valueAt_cons]
        cases s with
        | wildcard => simp [Map.next]
        | child e' =>
          by_cases he : Element.key k = e'
          · subst he
            simp only [Map.next, Map.children_mk, childGet_childPut_self, ih, List.map_cons,
              slotOf_key, List.cons.injEq, true_and, List.cons_prefix_cons]
            cases childGet (Element.key k) m.children with
            | none =>
              simp only [Option.getD_none, Map.valueAt_empty]
              split_ifs with h₁ h₂
              · rfl
              · rfl
              · exact Map.nodeAt_val_empty ss _ h₂
            | some c => simp
          · have hne : Slot.child e' ≠ Slot.child (Element.key k) := by
              intro hc
              exact he (Slot.child.inj hc).symm
            simp [Map.next, childGet_childPut_ne he, hne]

/-- Two `Set` calls at different paths give, in either order, maps with the
same content. -/
theorem Map.sameContent_Set_comm (m : Map K V) {p q : Path K} (h : p ≠ q) (v w : Option V) :
    ((m.Set p v).Set q w).SameContent ((m.Set q w).Set p v) := by
  intro ss
  have hne : p.map slotOf ≠ q.map slotOf := fun hc => h (List.map_injective_iff.mpr
    slotOf_injective hc)
  simp only [Map.nodeAt_val_Set, Map.valueAt_Set]
  by_cases h₁ : ss = q.map slotOf
  · have h₂ : ss ≠ p.map slotOf := fun hc => hne (hc.symm.trans h₁)
    subst h₁
    simp [Ne.symm hne]
  · by_cases h₂ : ss = p.map slotOf
    · subst h₂
      simp [hne]
    · simp only [h₁, h₂, if_false]
      split_ifs <;> rfl

end ContentAfterSet

section RenderingClaims

/-- C17: `String` renders a node as its value line, when it has a value, then
its wildcard child under the label `*`, then one labelled subtree for every
key of `children`, the keys taken in ascending order of their string
rendering (the list `sortKeys` is sorted by rendering and is a permutation of
the keys). Hence maps with the same content whose sibling keys have pairwise
distinct renderings give the same text, whatever the order of their
`children`; in particular two `Set` calls at different paths give the same
text in either order. -/
theorem String_renders_children_in_key_order :
    (∀ (K V : Type) [DecidableEq K] (fmtVal : V → String) (keyString : K → String)
        (quote : String → String) (val : Option V) (w : Option (Map K V))
        (cs : List (Element K × Map K V)) (indent : String),
        (Map.mk val w cs).write fmtVal keyString quote indent =
          (match val with
           | none => ""
           | some v => indent ++ "Val: " ++ fmtVal v ++ "\n") ++
          (match w with
           | none => ""
           | some wm =>
             indent ++ "Child " ++ quote "*" ++ ":\n" ++
               wm.write fmtVal keyString quote (indent ++ "  ")) ++
          String.join ((sortKeys keyString (cs.map Prod.fst)).map fun key =>
            indent ++ "Child " ++ quote (key.String keyString) ++ ":\n" ++
              (match childGet key cs with
               | none => ""
               | some c => c.write fmtVal keyString quote (indent ++ "  ")))) ∧
    (∀ (K : Type) [DecidableEq K] (keyString : K → String) (ks : List (Element K)),
        (sortKeys keyString ks).Pairwise
            (fun a b => a.String keyString ≤ b.String keyString) ∧
          (sortKeys keyString ks).Perm ks) ∧
    (∀ (K V : Type) [DecidableEq K] (fmtVal : V → String) (keyString : K → String)
        (quote : String → String) (m₁ m₂ : Map K V),
        m₁.SameContent m₂ → m₁.distinctKeyStrings keyString = true →
        m₂.distinctKeyStrings keyString = true →
        m₁.String fmtVal keyString quote = m₂.String fmtVal keyString quote) ∧
    (∀ (K V : Type) [DecidableEq K] (fmtVal : V → String) (keyString : K → String)
        (quote : String → String) (m : Map K V) (p q : Path K) (v w : Option V),
        p ≠ q → ((m.Set p v).Set q w).distinctKeyStrings keyString = true →
        ((m.Set q w).Set p v).distinctKeyStrings keyString = true →
        ((m.Set p v).Set q w).String fmtVal keyString quote =
          ((m.Set q w).Set p v).String fmtVal keyString quote) := by
  refine ⟨?_, ?_, ?_, ?_⟩
  · intro K V _ fmtVal keyString quote val w cs indent
    exact write_mk_eq fmtVal keyString quote val w cs indent
  · intro K _ keyString ks
    exact ⟨sortKeys_sorted keyString ks, sortKeys_perm keyString ks⟩
  · intro K V _ fmtVal keyString quote m₁ m₂ h h₁ h₂
    exact write_eq_of_sameContent fmtVal keyString quote (sizeOf m₁) m₁ m₂ "" (Nat.le_refl _)
      h h₁ h₂
  · intro K V _ fmtVal keyString quote m p q v w h h₁ h₂
    exact write_eq_of_sameContent fmtVal keyString quote _ _ _ "" (Nat.le_refl _)
      (Map.sameContent_Set_comm m h v w) h₁ h₂

/-- The two orders of `Set (b) x` and `Set (a) y` on the empty map give the
same text, with the child `a` before the child `b`. -/
theorem String_renders_children_in_key_order_witness :
    ([Element.key "b"] : Path String) ≠ [Element.key "a"] ∧
    (((Map.empty : Map String String).Set [Element.key "b"] (some "x")).Set
        [Element.key "a"] (some "y")).String id id id =
      (((Map.empty : Map String String).Set [Element.key "a"] (some "y")).Set
        [Element.key "b"] (some "x")).String id id id :=
  ⟨by decide,
    String_renders_children_in_key_order.2.2.2 String String id id id Map.empty
      [Element.key "b"] [Element.key "a"] (some "x") (some "y") (by decide) (by decide)
      (by decide)⟩

/-- The text of the map built by `Set (b) x` then `Set (a) y`: the child `a`
comes before the child `b`. -/
theorem String_of_two_children :
    (((Map.empty : Map String String).Set [Element.key "b"] (some "x")).Set
        [Element.key "a"] (some "y")).String id id id =
      "Child a:\n  Val: y\nChild b:\n  Val: x\n" := by
  simp [Map.String, Map.Set, Map.write, writeWildcard, writeChildren, childText, childPut,
    childGet, sortKeys, Element.String, Map.empty, List.orderedInsert]
  rw [if_neg (by decide)]
  decide

/-- When two sibling keys have the same rendering the text is not determined
by the content: the two orders of insertion give different texts. -/
theorem String_depends_on_order_when_renderings_collide :
    (((Map.empty : Map Nat String).Set [Element.key 1] (some "x")).Set
        [Element.key 2] (some "y")).String id (fun _ => "k") id ≠
      (((Map.empty : Map Nat String).Set [Element.key 2] (some "y")).Set
        [Element.key 1] (some "x")).String id (fun _ => "k") id := by
  simp [Map.String, Map.Set, Map.write, writeWildcard, writeChildren, childText, childPut,
    childGet, sortKeys, Element.String, Map.empty, List.orderedInsert]
  decide

end RenderingClaims

end path
